import Mathlib

set_option maxHeartbeats 2000000
set_option maxRecDepth 8000

/-!
Verification development for the zeek repository: a shallow embedding of the
zsh tokenizer (src/src/zsh-tokenizer/zsh-tokenizer.ts), the syntax
highlighter (src/src/syntax-highlight.ts, src/src/terminal.ts), the line
editor (src/src/line-editor.ts) and the menu popup filter/selection logic
(src/src/menu-popup.ts).  Strings are embedded as `List Char`; JavaScript
string indexing/slicing is embedded with `List.take` / `List.drop`, which
clamp exactly as JavaScript `slice`/`substring` clamp.  Loops are embedded
as structural recursions, with an explicit fuel argument where the scan
position can jump by more than one character per iteration (fuel equal to
the length of the remaining input always suffices because every iteration
consumes at least one character).
-/

namespace Zeek

/-! ## Basic character classes and list helpers -/

/-- The single-quote character `'` (code 39). -/
def singleQuote : Char := Char.ofNat 39

/-- The double-quote character (code 34). -/
def doubleQuote : Char := Char.ofNat 34

/-- The backtick character (code 96). -/
def backQuote : Char := Char.ofNat 96

/-- The backslash character. -/
def backslashChar : Char := '\\'

/-- The ESC character (code 27), used by ANSI escape sequences. -/
def escChar : Char := Char.ofNat 27

/-- Embedding of the JavaScript regular expression class `\s` (whitespace). -/
def isWS (c : Char) : Bool :=
  c = ' ' ∨ c = '\t' ∨ c = '\n' ∨ c = '\r' ∨
  c = Char.ofNat 11 ∨ c = Char.ofNat 12 ∨
  c = Char.ofNat 0xa0 ∨ c = Char.ofNat 0x1680 ∨
  (0x2000 ≤ c.toNat ∧ c.toNat ≤ 0x200a) ∨
  c = Char.ofNat 0x2028 ∨ c = Char.ofNat 0x2029 ∨ c = Char.ofNat 0x202f ∨
  c = Char.ofNat 0x205f ∨ c = Char.ofNat 0x3000 ∨ c = Char.ofNat 0xfeff

/-- Embedding of the JavaScript regular expression class `\d` (digit). -/
def isDigit (c : Char) : Bool := '0' ≤ c ∧ c ≤ '9'

/-- Character class `[a-zA-Z_]` (identifier start). -/
def isIdentStart (c : Char) : Bool :=
  ('a' ≤ c ∧ c ≤ 'z') ∨ ('A' ≤ c ∧ c ≤ 'Z') ∨ c = '_'

/-- Character class `[a-zA-Z0-9_]` (identifier continuation). -/
def isIdentChar (c : Char) : Bool := isIdentStart c || isDigit c

/-- Boolean embedding of JavaScript `String.prototype.startsWith` on char lists
(first argument: the string, second: the candidate leading part). -/
def lstartsWith : List Char → List Char → Bool
  | _, [] => true
  | [], _ :: _ => false
  | a :: as, p :: ps => a == p && lstartsWith as ps

/-- Boolean embedding of JavaScript `String.prototype.includes` on char lists:
`listContains hay needle` holds iff `needle` occurs contiguously in `hay`. -/
def listContains : List Char → List Char → Bool
  | hay, needle =>
    lstartsWith hay needle ||
      (match hay with
       | [] => false
       | _ :: t => listContains t needle)

/-- Embedding of JavaScript `String.prototype.split(' ')`: splitting on every
single space character; `splitSp [] = [[]]` just as `"".split(' ') = [""]`. -/
def splitSp : List Char → List (List Char)
  | [] => [[]]
  | c :: rest =>
    match splitSp rest with
    | [] => [[c]]
    | w :: ws => if c = ' ' then [] :: w :: ws else (c :: w) :: ws

/-- Lower-casing a char list (JavaScript `toLowerCase`; `Char.toLower` is the
ASCII mapping, which coincides with JavaScript on the ASCII range). -/
def toLowerL (s : List Char) : List Char := s.map Char.toLower

/-! ## Tokenizer data model (zsh-tokenizer.ts) -/

/-- Token types, from the `ZshTokenType` union in zsh-tokenizer.ts. -/
inductive ZshTokenType where
  | unknownToken
  | reservedWord
  | builtin
  | command
  | precommand
  | commandseparator
  | path
  | globbing
  | historyExpansion
  | singleHyphenOption
  | doubleHyphenOption
  | singleQuotedArgument
  | singleQuotedArgumentUnclosed
  | doubleQuotedArgument
  | doubleQuotedArgumentUnclosed
  | dollarQuotedArgument
  | dollarQuotedArgumentUnclosed
  | backQuotedArgument
  | backQuotedArgumentUnclosed
  | commandSubstitution
  | processSubstitution
  | arithmeticExpansion
  | assign
  | redirection
  | comment
  | default
deriving DecidableEq

/-- A token with its type, text and inclusive character span.  The source
field `end` is named `endPos` here because `end` is a Lean keyword. -/
structure ZshToken where
  type : ZshTokenType
  text : List Char
  start : Nat
  endPos : Nat
deriving DecidableEq

/-- Result type of the quote/substitution matchers (`MatchResult`). -/
structure MatchResult where
  text : List Char
  unclosed : Bool
deriving DecidableEq

/-- The `RESERVED_WORDS` set.  `{` and `}` are built via `Char.ofNat`. -/
def RESERVED_WORDS : List (List Char) :=
  (["if", "then", "else", "elif", "fi", "case", "esac", "for", "select",
    "while", "until", "do", "done", "in", "function", "time", "coproc",
    "[[", "]]", "!", "foreach", "end", "repeat", "nocorrect",
    "always"].map String.toList) ++ [[Char.ofNat 123], [Char.ofNat 125]]

/-- The `BUILTINS` set. -/
def BUILTINS : List (List Char) :=
  ([".", ":", "alias", "autoload", "bg", "bindkey", "break", "builtin",
    "bye", "cap", "cd", "chdir", "clone", "command", "comparguments",
    "compcall", "compctl", "compdescribe", "compfiles", "compgroups",
    "compquote", "comptags", "comptry", "compvalues", "continue", "declare",
    "dirs", "disable", "disown", "echo", "echotc", "echoti", "emulate",
    "enable", "eval", "exec", "exit", "export", "false", "fc", "fg",
    "float", "functions", "getcap", "getln", "getopts", "hash", "history",
    "integer", "jobs", "kill", "let", "limit", "local", "log", "logout",
    "noglob", "popd", "print", "printf", "pushd", "pushln", "pwd", "r",
    "read", "readonly", "rehash", "return", "sched", "set", "setcap",
    "setopt", "shift", "source", "stat", "suspend", "test", "times",
    "trap", "true", "ttyctl", "type", "typeset", "ulimit", "umask",
    "unalias", "unfunction", "unhash", "unlimit", "unset", "unsetopt",
    "vared", "wait", "whence", "where", "which", "zcompile", "zformat",
    "zftp", "zle", "zmodload", "zparseopts", "zprof", "zpty",
    "zregexparse", "zsocket", "zstyle", "ztcp"].map String.toList)

/-- The `PRECOMMANDS` set. -/
def PRECOMMANDS : List (List Char) :=
  (["builtin", "command", "exec", "nocorrect", "noglob", "pkexec", "sudo",
    "doas", "-"].map String.toList)

/-- The `REDIRECTION_PATTERNS` list (each regex is an anchored literal). -/
def REDIRECTION_PATTERNS : List (List Char) :=
  [['&', '>', '>'], ['&', '>'], ['<', '<', '<'], ['<', '>'],
   ['>', '>', '!'], ['>', '>', '|'], ['>', '>'], ['>', '&'], ['>', '!'],
   ['>', '|'], ['<', '&'], ['<'], ['>']]

/-! ## Matcher functions -/

/-- `matchCommandSeparator`: multi-character separators first, then single. -/
def matchCommandSeparator (s : List Char) : Option (List Char) :=
  match [[';', ';'], [';', '&'], [';', '|'], ['&', '&'], ['|', '|'],
         ['|', '&'], ['&', '!'], ['&', '|']].find? (fun sep => lstartsWith s sep) with
  | some sep => some sep
  | none => [[';'], ['|'], ['&']].find? (fun sep => lstartsWith s sep)

/-- `matchRedirection`: an optional run of digits (fd number) followed by the
first matching redirection pattern. -/
def matchRedirection (s : List Char) : Option (List Char) :=
  let np := s.takeWhile isDigit
  let remaining := s.drop np.length
  match REDIRECTION_PATTERNS.find? (fun p => lstartsWith remaining p) with
  | some p => some (np ++ p)
  | none => none

/-- Balanced-parenthesis scan (depth counter, no quote awareness): returns
the number of characters consumed (the character which takes the depth to 0
is consumed) and the depth at the end of the scan. -/
def balanceScan : Nat → List Char → Nat × Nat
  | depth, [] => (0, depth)
  | depth, c :: rest =>
    let d2 := if c = '(' then depth + 1 else if c = ')' then depth - 1 else depth
    if d2 = 0 then (1, 0)
    else
      let r := balanceScan d2 rest
      (r.1 + 1, r.2)

/-- `matchProcessSubstitution`: skip `<(` or `>(` and scan balanced parens. -/
def matchProcessSubstitution (s : List Char) : MatchResult :=
  let r := balanceScan 1 (s.drop 2)
  ⟨s.take (2 + r.1), decide (0 < r.2)⟩

/-- Balanced-paren scan for `$((...))` which ignores backslash-escaped
parens; `prev` is the previous character of the input. -/
def arithScan : Nat → Char → List Char → Nat × Nat
  | depth, _, [] => (0, depth)
  | depth, prev, c :: rest =>
    let d2 :=
      if c = '(' ∧ ¬ prev = backslashChar then depth + 1
      else if c = ')' ∧ ¬ prev = backslashChar then depth - 1
      else depth
    if d2 = 0 then (1, 0)
    else
      let r := arithScan d2 c rest
      (r.1 + 1, r.2)

/-- `matchArithmeticExpansion`: skip `$((` and scan from depth 2; the
character before the scan start is the second `(`. -/
def matchArithmeticExpansion (s : List Char) : MatchResult :=
  let r := arithScan 2 '(' (s.drop 3)
  ⟨s.take (3 + r.1), decide (0 < r.2)⟩

/-- The shared inner quote-skipping loop: scan until the closing quote
character `q`; when `ea` (escape-aware) is set, a backslash skips the next
character.  Returns the number of characters consumed strictly before the
closing quote, or `none` when end-of-input is reached first. -/
def quoteSkipInner : Char → Bool → List Char → Option Nat
  | _, _, [] => none
  | q, ea, c :: rest =>
    if c = q then some 0
    else if c = backslashChar ∧ ea = true then
      match rest with
      | [] => none
      | _ :: rest2 => (quoteSkipInner q ea rest2).map (· + 2)
    else (quoteSkipInner q ea rest).map (· + 1)

/-- Characters consumed up to and including the closing quote `q`, if any. -/
def scanClose (q : Char) (ea : Bool) (s : List Char) : Option Nat :=
  (quoteSkipInner q ea s).map (· + 1)

/-- Characters consumed by a quote region inside a larger scan, where the
opening quote has already been consumed: everything before the closing
quote plus the closing quote itself, clamped to the remaining input when
the quote is unclosed (JavaScript `slice` clamps the overshoot). -/
def skipAfterOpen (q : Char) (ea : Bool) (s : List Char) : Nat :=
  match quoteSkipInner q ea s with
  | some n => n + 1
  | none => s.length

/-- The scan loop of `matchCommandSubstitution`: balanced parens, with
`'`, `"` and backtick opening nested quote regions that do not affect the
depth.  The `fuel` argument bounds the recursion; fuel equal to the length
of the input suffices. -/
def cmdSubScan : Nat → Nat → List Char → Nat × Nat
  | _, depth, [] => (0, depth)
  | 0, depth, _ :: _ => (0, depth)
  | fuel + 1, depth, c :: rest =>
    if c = singleQuote ∨ c = doubleQuote ∨ c = backQuote then
      let k := skipAfterOpen c (c != singleQuote) rest
      let r := cmdSubScan fuel depth (rest.drop k)
      (1 + k + r.1, r.2)
    else
      let d2 := if c = '(' then depth + 1 else if c = ')' then depth - 1 else depth
      if d2 = 0 then (1, 0)
      else
        let r := cmdSubScan fuel d2 rest
        (r.1 + 1, r.2)

/-- `matchCommandSubstitution`: skip `$(` and scan with quote awareness. -/
def matchCommandSubstitution (s : List Char) : MatchResult :=
  let r := cmdSubScan s.length 1 (s.drop 2)
  ⟨s.take (2 + r.1), decide (0 < r.2)⟩

/-- `matchDollarQuotedString`: skip `$'`, then a backslash-aware scan for
the closing single quote. -/
def matchDollarQuotedString (s : List Char) : MatchResult :=
  match scanClose singleQuote true (s.drop 2) with
  | some n => ⟨s.take (2 + n), false⟩
  | none => ⟨s, true⟩

/-- `matchSingleQuotedString`: no escape processing inside. -/
def matchSingleQuotedString (s : List Char) : MatchResult :=
  match scanClose singleQuote false (s.drop 1) with
  | some n => ⟨s.take (1 + n), false⟩
  | none => ⟨s, true⟩

/-- `matchDoubleQuotedString`: backslash-escape aware. -/
def matchDoubleQuotedString (s : List Char) : MatchResult :=
  match scanClose doubleQuote true (s.drop 1) with
  | some n => ⟨s.take (1 + n), false⟩
  | none => ⟨s, true⟩

/-- `matchBacktickSubstitution`: backslash-escape aware. -/
def matchBacktickSubstitution (s : List Char) : MatchResult :=
  match scanClose backQuote true (s.drop 1) with
  | some n => ⟨s.take (1 + n), false⟩
  | none => ⟨s, true⟩

/-- History pattern `/^!-\d+/` applied at `'!' :: rest`. -/
def histNeg (rest : List Char) : Option (List Char) :=
  match rest with
  | '-' :: rest2 =>
    let ds := rest2.takeWhile isDigit
    if ds.isEmpty then none else some ('!' :: '-' :: ds)
  | _ => none

/-- History pattern `/^!\d+/` applied at `'!' :: rest`. -/
def histNum (rest : List Char) : Option (List Char) :=
  let ds := rest.takeWhile isDigit
  if ds.isEmpty then none else some ('!' :: ds)

/-- History pattern of the form `!?string?` (the trailing `?` optional). -/
def histSearch (rest : List Char) : Option (List Char) :=
  match rest with
  | '?' :: rest2 =>
    let ns := rest2.takeWhile (fun c => c != '?')
    if ns.isEmpty then none
    else
      some ('!' :: '?' :: (ns ++
        (if lstartsWith (rest2.drop ns.length) ['?'] then ['?'] else [])))
  | _ => none

/-- History pattern `/^![a-zA-Z_][a-zA-Z0-9_]*/` applied at `'!' :: rest`. -/
def histIdent (rest : List Char) : Option (List Char) :=
  match rest with
  | c :: rest2 =>
    if isIdentStart c then some ('!' :: c :: rest2.takeWhile isIdentChar)
    else none
  | [] => none

/-- `matchHistoryExpansion`: the fixed ordered set of patterns. -/
def matchHistoryExpansion (s : List Char) : Option (List Char) :=
  match s with
  | '!' :: rest =>
    if lstartsWith rest ['!'] then some ['!', '!']
    else if lstartsWith rest ['$'] then some ['!', '$']
    else if lstartsWith rest ['^'] then some ['!', '^']
    else if lstartsWith rest ['*'] then some ['!', '*']
    else
      match histNeg rest with
      | some m => some m
      | none =>
        match histNum rest with
        | some m => some m
        | none =>
          match histSearch rest with
          | some m => some m
          | none => histIdent rest
  | _ => none

/-- The word terminator set of `matchWord`. -/
def isTerminator (c : Char) : Bool :=
  [' ', '\t', '\n', ';', '&', '|', '<', '>', '#'].contains c

/-- The scan loop of `matchWord`, counting consumed characters.  `prev` is
the character before the current position (`none` at the word start), used
by the extended-glob/substitution parenthesis rule; fuel equal to the
length of the input suffices because every branch consumes at least one
character. -/
def matchWordAux : Nat → Option Char → List Char → Nat
  | 0, _, _ => 0
  | _, _, [] => 0
  | fuel + 1, prev, c :: rest =>
    if isTerminator c then 0
    else if c = '(' ∨ c = ')' then
      match prev with
      | some p =>
        if c = '(' ∧ (p = '$' ∨ p = '@' ∨ p = '?' ∨ p = '*' ∨ p = '+' ∨ p = '!') then
          let k := (balanceScan 1 rest).1
          1 + k + matchWordAux fuel (some ((rest.take k).getLastD c)) (rest.drop k)
        else 0
      | none => 0
    else if c = doubleQuote ∨ c = singleQuote ∨ c = backQuote then
      let k := skipAfterOpen c (c != singleQuote) rest
      1 + k + matchWordAux fuel (some ((rest.take k).getLastD c)) (rest.drop k)
    else if c = '$' ∧ lstartsWith rest [singleQuote] then
      let k := 1 + skipAfterOpen singleQuote true (rest.drop 1)
      1 + k + matchWordAux fuel (some ((rest.take k).getLastD c)) (rest.drop k)
    else if c = '$' ∧ lstartsWith rest ['('] then
      let k := 1 + (balanceScan 1 (rest.drop 1)).1
      1 + k + matchWordAux fuel (some ((rest.take k).getLastD c)) (rest.drop k)
    else if c = backslashChar ∧ 0 < rest.length then
      2 + matchWordAux fuel (some (rest.getD 0 c)) (rest.drop 1)
    else 1 + matchWordAux fuel (some c) rest

/-- `matchWord`: number of characters of the word starting the input. -/
def matchWord (s : List Char) : Nat := matchWordAux s.length none s

/-- The scan loop of `containsGlob`, tracking the in-single-quote and
in-double-quote states. -/
def containsGlobAux : Bool → Bool → List Char → Bool
  | _, _, [] => false
  | inS, inD, c :: rest =>
    if c = backslashChar ∧ inS = false then
      match rest with
      | [] => false
      | _ :: rest2 => containsGlobAux inS inD rest2
    else if c = singleQuote ∧ inD = false then containsGlobAux (!inS) inD rest
    else if c = doubleQuote ∧ inS = false then containsGlobAux inS (!inD) rest
    else if inS = false ∧ inD = false then
      if c = '*' ∨ c = '?' then true
      else if c = '[' ∧ rest.contains ']' then true
      else if (c = '@' ∨ c = '?' ∨ c = '*' ∨ c = '+' ∨ c = '!') ∧
              lstartsWith rest ['('] then true
      else containsGlobAux inS inD rest
    else containsGlobAux inS inD rest

/-- `containsGlob`: unquoted glob metacharacter detection. -/
def containsGlob (word : List Char) : Bool := containsGlobAux false false word

/-- `looksLikePath`: path heuristic (`/`, `./`, `../`, `~/`). -/
def looksLikePath (word : List Char) : Bool :=
  lstartsWith word ['/'] || lstartsWith word ['.', '/'] ||
  lstartsWith word ['.', '.', '/'] || lstartsWith word ['~', '/']

/-- Anchored match of the assignment regex `/^[a-zA-Z_][a-zA-Z0-9_]*\+?=/`. -/
def isAssignStart (w : List Char) : Bool :=
  match w with
  | [] => false
  | c :: rest =>
    isIdentStart c &&
      (match rest.dropWhile isIdentChar with
       | '=' :: _ => true
       | '+' :: '=' :: _ => true
       | _ => false)

/-- `classifyWord`: classification of a word token given the command
position flag and its start offset. -/
def classifyWord (word : List Char) (expectCommand : Bool) (start : Nat) : ZshToken :=
  let endPos := start + word.length - 1
  if isAssignStart word then ⟨.assign, word, start, endPos⟩
  else if containsGlob word then ⟨.globbing, word, start, endPos⟩
  else if looksLikePath word then ⟨.path, word, start, endPos⟩
  else if expectCommand then
    if RESERVED_WORDS.contains word then ⟨.reservedWord, word, start, endPos⟩
    else if PRECOMMANDS.contains word then ⟨.precommand, word, start, endPos⟩
    else if BUILTINS.contains word then ⟨.builtin, word, start, endPos⟩
    else ⟨.command, word, start, endPos⟩
  else
    if lstartsWith word ['-', '-'] ∧ 2 < word.length then
      ⟨.doubleHyphenOption, word, start, endPos⟩
    else if lstartsWith word ['-'] ∧ 1 < word.length ∧
            lstartsWith word ['-', '-'] = false then
      ⟨.singleHyphenOption, word, start, endPos⟩
    else ⟨.default, word, start, endPos⟩

/-- One iteration of the `tokenize` scan loop at a non-whitespace position:
`s` is the remaining input (the suffix of the full input starting at
`pos`), `ec` the expect-command flag.  Returns the emitted token, the new
scan position and the new flag.  The `break` of the comment branch is
embedded as jumping to the end of the input. -/
def nextToken : List Char → Nat → Bool → ZshToken × Nat × Bool
  | [], pos, ec => (⟨.unknownToken, [], pos, pos⟩, pos + 1, ec)
  | c :: rest, pos, ec =>
    if c = '#' then
      (⟨.comment, c :: rest, pos, pos + rest.length⟩, pos + rest.length + 1, ec)
    else if (c = '<' ∨ c = '>') ∧ lstartsWith rest ['('] then
      let r := matchProcessSubstitution (c :: rest)
      (⟨.processSubstitution, r.text, pos, pos + r.text.length - 1⟩,
        pos + r.text.length, false)
    else
      match matchRedirection (c :: rest) with
      | some m =>
        (⟨.redirection, m, pos, pos + m.length - 1⟩, pos + m.length, false)
      | none =>
        match matchCommandSeparator (c :: rest) with
        | some m =>
          (⟨.commandseparator, m, pos, pos + m.length - 1⟩, pos + m.length, true)
        | none =>
          if c = '$' ∧ lstartsWith rest ['(', '('] then
            let r := matchArithmeticExpansion (c :: rest)
            (⟨.arithmeticExpansion, r.text, pos, pos + r.text.length - 1⟩,
              pos + r.text.length, false)
          else if c = '$' ∧ lstartsWith rest ['('] ∧ ¬ rest[1]? = some '(' then
            let r := matchCommandSubstitution (c :: rest)
            (⟨.commandSubstitution, r.text, pos, pos + r.text.length - 1⟩,
              pos + r.text.length, false)
          else if c = '$' ∧ lstartsWith rest [singleQuote] then
            let r := matchDollarQuotedString (c :: rest)
            (⟨if r.unclosed then .dollarQuotedArgumentUnclosed
              else .dollarQuotedArgument, r.text, pos, pos + r.text.length - 1⟩,
              pos + r.text.length, false)
          else if c = singleQuote then
            let r := matchSingleQuotedString (c :: rest)
            (⟨if r.unclosed then .singleQuotedArgumentUnclosed
              else .singleQuotedArgument, r.text, pos, pos + r.text.length - 1⟩,
              pos + r.text.length, false)
          else if c = doubleQuote then
            let r := matchDoubleQuotedString (c :: rest)
            (⟨if r.unclosed then .doubleQuotedArgumentUnclosed
              else .doubleQuotedArgument, r.text, pos, pos + r.text.length - 1⟩,
              pos + r.text.length, false)
          else if c = backQuote then
            let r := matchBacktickSubstitution (c :: rest)
            (⟨if r.unclosed then .backQuotedArgumentUnclosed
              else .backQuotedArgument, r.text, pos, pos + r.text.length - 1⟩,
              pos + r.text.length, false)
          else
            match (if c = '!' ∧ 0 < rest.length then
                     matchHistoryExpansion (c :: rest)
                   else none) with
            | some m =>
              (⟨.historyExpansion, m, pos, pos + m.length - 1⟩,
                pos + m.length, false)
            | none =>
              let n := matchWord (c :: rest)
              if 0 < n then
                let w := (c :: rest).take n
                let tok := classifyWord w ec pos
                (tok, pos + w.length,
                  if tok.type = .precommand then true
                  else if tok.type = .command ∨ tok.type = .builtin ∨
                          tok.type = .reservedWord then false
                  else if tok.type = .assign then true
                  else false)
              else
                (⟨.unknownToken, [c], pos, pos⟩, pos + 1, ec)

/-- The `tokenize` scan loop: `s` is the remaining input (the suffix of the
full input starting at `pos`).  Fuel equal to the length of the remaining
input suffices because `nextToken` always advances the position. -/
def tokenizeAux : Nat → List Char → Nat → Bool → List ZshToken
  | 0, _, _, _ => []
  | _ + 1, [], _, _ => []
  | fuel + 1, c :: rest, pos, ec =>
    if isWS c then tokenizeAux fuel rest (pos + 1) ec
    else
      let r := nextToken (c :: rest) pos ec
      r.1 :: tokenizeAux fuel ((c :: rest).drop (r.2.1 - pos)) r.2.1 r.2.2

/-- `tokenize`: the top-level tokenizer. -/
def tokenize (input : List Char) : List ZshToken :=
  tokenizeAux input.length input 0 true

/-! ## Highlighter (syntax-highlight.ts and terminal.ts) -/

/-- Value of a hexadecimal digit. -/
def hexVal (c : Char) : Option Nat :=
  if '0' ≤ c ∧ c ≤ '9' then some (c.toNat - 48)
  else if 'a' ≤ c ∧ c ≤ 'f' then some (c.toNat - 87)
  else if 'A' ≤ c ∧ c ≤ 'F' then some (c.toNat - 55)
  else none

/-- JavaScript `parseInt(s, 16)` on a two-character string: the maximal
leading run of hex digits, `none` (NaN) when the first character is not a
hex digit.  (JavaScript additionally skips leading whitespace and an
optional sign, which the two-character substrings used here never have.) -/
def parseIntHex2 (a b : Char) : Option Nat :=
  match hexVal a, hexVal b with
  | some x, some y => some (16 * x + y)
  | some x, none => some x
  | none, _ => none

/-- `parseCssHex`: a 7-character `#rrggbb` string to an RGB triple. -/
def parseCssHex (hex : List Char) : Option (Nat × Nat × Nat) :=
  match hex with
  | ['#', a, b, c, d, e, f] =>
    match parseIntHex2 a b, parseIntHex2 c d, parseIntHex2 e f with
    | some r, some g, some bl => some (r, g, bl)
    | _, _, _ => none
  | _ => none

/-- Decimal rendering of a natural number as a char list. -/
def natChars (n : Nat) : List Char := (Nat.repr n).toList

/-- `fgRGB`: the 24-bit foreground color escape sequence. -/
def fgRGB (r g b : Nat) : List Char :=
  [escChar, '[', '3', '8', ';', '2', ';'] ++ natChars r ++ [';'] ++
    natChars g ++ [';'] ++ natChars b ++ ['m']

/-- `RESET_COLOR_SEQUENCE` (`\x1b[0m`). -/
def RESET_COLOR_SEQUENCE : List Char := [escChar, '[', '0', 'm']

/-- `reset`: prepend the reset sequence. -/
def reset (s : List Char) : List Char := RESET_COLOR_SEQUENCE ++ s

/-- `fgColorFunc`: prefix the 24-bit color sequence for a valid hex color,
otherwise the reset function. -/
def fgColorFunc (hex : List Char) (s : List Char) : List Char :=
  match parseCssHex hex with
  | none => reset s
  | some (r, g, b) => fgRGB r g b ++ s

/-- `underline`: wrap in `\x1b[4m` … `\x1b[24m`. -/
def underline (s : List Char) : List Char :=
  [escChar, '[', '4', 'm'] ++ s ++ [escChar, '[', '2', '4', 'm']

/-- `composeDecorators`. -/
def composeDecorators (f g : List Char → List Char) : List Char → List Char :=
  fun s => g (f s)

/-- Monokai palette constants from syntax-highlight.ts. -/
def COLOR_GREEN : List Char := "#a6e22e".toList

/-- Monokai fuchsia. -/
def COLOR_FUCHSIA : List Char := "#f92672".toList

/-- Monokai cyan. -/
def COLOR_CYAN : List Char := "#66d9ef".toList

/-- Monokai orange. -/
def COLOR_ORANGE : List Char := "#fd971f".toList

/-- Monokai purple. -/
def COLOR_PURPLE : List Char := "#ae81ff".toList

/-- Monokai yellow. -/
def COLOR_YELLOW : List Char := "#e6db74".toList

/-- Monokai grey. -/
def COLOR_GREY : List Char := "#75715e".toList

/-- White. -/
def COLOR_WHITE : List Char := "#ffffff".toList

/-- The `tokenColors` table: the color function for each token type. -/
def tokenColors : ZshTokenType → (List Char → List Char)
  | .unknownToken => fgColorFunc COLOR_FUCHSIA
  | .reservedWord => fgColorFunc COLOR_FUCHSIA
  | .builtin => composeDecorators underline (fgColorFunc COLOR_GREEN)
  | .command => fgColorFunc COLOR_GREEN
  | .precommand => fgColorFunc COLOR_GREEN
  | .commandseparator => fgColorFunc COLOR_WHITE
  | .path => fgColorFunc COLOR_CYAN
  | .globbing => fgColorFunc COLOR_ORANGE
  | .historyExpansion => fgColorFunc COLOR_PURPLE
  | .singleHyphenOption => fgColorFunc COLOR_PURPLE
  | .doubleHyphenOption => fgColorFunc COLOR_PURPLE
  | .singleQuotedArgument => fgColorFunc COLOR_ORANGE
  | .singleQuotedArgumentUnclosed => fgColorFunc COLOR_FUCHSIA
  | .doubleQuotedArgument => fgColorFunc COLOR_ORANGE
  | .doubleQuotedArgumentUnclosed => fgColorFunc COLOR_FUCHSIA
  | .dollarQuotedArgument => fgColorFunc COLOR_ORANGE
  | .dollarQuotedArgumentUnclosed => fgColorFunc COLOR_FUCHSIA
  | .backQuotedArgument => fgColorFunc COLOR_CYAN
  | .backQuotedArgumentUnclosed => fgColorFunc COLOR_FUCHSIA
  | .commandSubstitution => fgColorFunc COLOR_CYAN
  | .processSubstitution => fgColorFunc COLOR_CYAN
  | .arithmeticExpansion => fgColorFunc COLOR_PURPLE
  | .assign => fgColorFunc COLOR_YELLOW
  | .redirection => fgColorFunc COLOR_WHITE
  | .comment => fgColorFunc COLOR_GREY
  | .default => fgColorFunc COLOR_CYAN

/-- `applyTokenColor`. -/
def applyTokenColor (text : List Char) (token : ZshToken) : List Char :=
  tokenColors token.type text

/-- JavaScript `String.prototype.substring`: clamps both arguments to the
string length and swaps them when the first exceeds the second. -/
def jsSubstring (l : List Char) (a b : Nat) : List Char :=
  (l.take (max a b)).drop (min a b)

/-- The loop of `colorize`: gap text before each token, then the colored
token text, then (after the last token) the remaining text. -/
def colorizeAux (line : List Char) (pos : Nat) : List ZshToken → List Char
  | [] => if pos < line.length then line.drop pos else []
  | t :: ts =>
    (if pos < t.start then jsSubstring line pos t.start else []) ++
      applyTokenColor (jsSubstring line t.start (t.endPos + 1)) t ++
      colorizeAux line (t.endPos + 1) ts

/-- `colorize`. -/
def colorize (line : List Char) (tokens : List ZshToken) : List Char :=
  if tokens.isEmpty then line else colorizeAux line 0 tokens

/-- `highlight` (returns the token list). -/
def highlight (line : List Char) : List ZshToken := tokenize line

/-- `highlightCommand`: tokenize and colorize. -/
def highlightCommand (cmd : List Char) : List Char :=
  colorize cmd (highlight cmd)

/-! ## Specification-side helpers for the highlighter and tokenizer claims -/

/-- The escape-sequence text inserted before a token of a given type. -/
def typePre (ty : ZshTokenType) : List Char :=
  match ty with
  | .builtin =>
    (match parseCssHex COLOR_GREEN with
     | none => RESET_COLOR_SEQUENCE
     | some (r, g, b) => fgRGB r g b) ++ [escChar, '[', '4', 'm']
  | _ =>
    match parseCssHex
        (match ty with
         | .unknownToken => COLOR_FUCHSIA
         | .reservedWord => COLOR_FUCHSIA
         | .command => COLOR_GREEN
         | .precommand => COLOR_GREEN
         | .commandseparator => COLOR_WHITE
         | .path => COLOR_CYAN
         | .globbing => COLOR_ORANGE
         | .historyExpansion => COLOR_PURPLE
         | .singleHyphenOption => COLOR_PURPLE
         | .doubleHyphenOption => COLOR_PURPLE
         | .singleQuotedArgument => COLOR_ORANGE
         | .singleQuotedArgumentUnclosed => COLOR_FUCHSIA
         | .doubleQuotedArgument => COLOR_ORANGE
         | .doubleQuotedArgumentUnclosed => COLOR_FUCHSIA
         | .dollarQuotedArgument => COLOR_ORANGE
         | .dollarQuotedArgumentUnclosed => COLOR_FUCHSIA
         | .backQuotedArgument => COLOR_CYAN
         | .backQuotedArgumentUnclosed => COLOR_FUCHSIA
         | .commandSubstitution => COLOR_CYAN
         | .processSubstitution => COLOR_CYAN
         | .arithmeticExpansion => COLOR_PURPLE
         | .assign => COLOR_YELLOW
         | .redirection => COLOR_WHITE
         | .comment => COLOR_GREY
         | _ => COLOR_CYAN) with
    | none => RESET_COLOR_SEQUENCE
    | some (r, g, b) => fgRGB r g b

/-- The escape-sequence text inserted after a token of a given type. -/
def typeSuf (ty : ZshTokenType) : List Char :=
  match ty with
  | .builtin => [escChar, '[', '2', '4', 'm']
  | _ => []

/-- Characters allowed inside an ANSI escape sequence body. -/
def ansiBodyChar (c : Char) : Bool := isDigit c || c == ';'

/-- One step of the ANSI escape sequence recognizer: state 0 expects ESC,
state 1 expects `[`, state 2 is inside the body until `m`. -/
def ansiStep : Nat → Char → Option Nat
  | 0, c => if c = escChar then some 1 else none
  | 1, c => if c = '[' then some 2 else none
  | 2, c => if c = 'm' then some 0 else if ansiBodyChar c then some 2 else none
  | _, _ => none

/-- A char list is a (possibly empty) concatenation of complete ANSI color
and style escape sequences. -/
def isAnsiSeqs (l : List Char) : Bool :=
  (l.foldl (fun st c => match st with
    | some n => ansiStep n c
    | none => none) (some 0)) == some 0

/-- Generic re-assembly of a line from a token list with per-type inserted
decorations: the gap before each token (taken from the line), the prefix
decoration, the token text, the suffix decoration; after the last token the
rest of the line.  With empty decorations this is exactly the
concatenation-with-gaps of the spec. -/
def assemble (line : List Char) (pres sufs : ZshTokenType → List Char)
    (pos : Nat) : List ZshToken → List Char
  | [] => line.drop pos
  | t :: ts =>
    (line.drop pos).take (t.start - pos) ++ pres t.type ++ t.text ++
      sufs t.type ++ assemble line pres sufs (t.endPos + 1) ts

/-- Re-assembly with no decorations: token texts with the original gaps. -/
def reassemble (line : List Char) (pos : Nat) (ts : List ZshToken) : List Char :=
  assemble line (fun _ => []) (fun _ => []) pos ts

/-- The span/coverage invariant of a token list produced by a scan that has
reached position `pos`: every token starts at or after `pos`, spans lie
inside the input and carry the corresponding substring as text, consecutive
spans are disjoint and increasing, and every skipped character (before a
token or after the last token) is whitespace. -/
def covers (input : List Char) : Nat → List ZshToken → Prop
  | pos, [] => ∀ k, pos ≤ k → k < input.length → isWS (input.getD k ' ') = true
  | pos, t :: ts =>
    pos ≤ t.start ∧ t.start ≤ t.endPos ∧ t.endPos < input.length ∧
    (∀ k, pos ≤ k → k < t.start → isWS (input.getD k ' ') = true) ∧
    t.text = (input.drop t.start).take (t.endPos + 1 - t.start) ∧
    covers input (t.endPos + 1) ts

/-- The expect-command flag update of the scan loop, as a function of the
emitted token's type alone: separators, assignments and precommands leave
it set, the command-position classifications clear it, unknown tokens (and
the scan-ending comment) leave it unchanged, everything else clears it. -/
def flagStep (ty : ZshTokenType) (ec : Bool) : Bool :=
  match ty with
  | .commandseparator => true
  | .assign => true
  | .precommand => true
  | .unknownToken => ec
  | .comment => ec
  | _ => false

/-- The flag update asserted by the specification claim: identical to
`flagStep` except that an unknown token is claimed to clear the flag. -/
def claimFlagStep (ty : ZshTokenType) (ec : Bool) : Bool :=
  match ty with
  | .commandseparator => true
  | .assign => true
  | .precommand => true
  | .comment => ec
  | _ => false

/-! ## Line editor (line-editor.ts) -/

/-- The text state of the line editor: the characters left and right of the
cursor.  The `row` field of the source only affects rendering and is
omitted from the text state. -/
structure LineEd where
  left : List Char
  right : List Char
deriving DecidableEq

/-- The full logical line. -/
def LineEd.line (st : LineEd) : List Char := st.left ++ st.right

/-- `isLetterOrNum`: digit, or a character whose upper and lower case
forms differ (ASCII mapping). -/
def isLetterOrNum (c : Char) : Bool :=
  decide ('0' ≤ c ∧ c ≤ '9') || (c.toLower != c.toUpper)

/-- `isStartOfWord`. -/
def isStartOfWord (str : List Char) (p : Nat) : Bool :=
  if p = 0 then true
  else isLetterOrNum (str.getD p ' ') && !isLetterOrNum (str.getD (p - 1) ' ')

/-- `isEndOfWord`. -/
def isEndOfWord (str : List Char) (p : Nat) : Bool :=
  if str.length ≤ p then true
  else !isLetterOrNum (str.getD p ' ') && isLetterOrNum (str.getD (p - 1) ' ')

/-- The `delete` (forward-delete) case of `handleNavigationKey`. -/
def forwardDelete (st : LineEd) : LineEd :=
  match st.right with
  | [] => st
  | _ :: rest => ⟨st.left, rest⟩

/-- The `left` case of `handleNavigationKey`. -/
def moveLeft (st : LineEd) : LineEd :=
  match st.left.getLast? with
  | none => st
  | some c => ⟨st.left.dropLast, c :: st.right⟩

/-- The `right` case of `handleNavigationKey`. -/
def moveRight (st : LineEd) : LineEd :=
  match st.right with
  | [] => st
  | c :: rest => ⟨st.left ++ [c], rest⟩

/-- `goHome`. -/
def goHome (st : LineEd) : LineEd := ⟨[], st.left ++ st.right⟩

/-- `goEnd`. -/
def goEnd (st : LineEd) : LineEd := ⟨st.left ++ st.right, []⟩

/-- `backwardWord`: scan from the end of `left` to the nearest word start
and move the split point there. -/
def backwardWord (st : LineEd) : LineEd :=
  if st.left.length = 0 then st
  else
    match ((List.range st.left.length).reverse).find?
        (fun p => isStartOfWord st.left p) with
    | some p => ⟨st.left.take p, st.left.drop p ++ st.right⟩
    | none => st

/-- `forwardWord`: scan positions 1 … `right.length` for the nearest word
end and move the split point there. -/
def forwardWord (st : LineEd) : LineEd :=
  if st.right.length = 0 then st
  else
    match (List.range' 1 st.right.length).find?
        (fun p => isEndOfWord st.right p) with
    | some p => ⟨st.left ++ st.right.take p, st.right.drop p⟩
    | none => st

/-- The backspace case of `editLine` (`left.slice(0, -1)`). -/
def backspace (st : LineEd) : LineEd := ⟨st.left.dropLast, st.right⟩

/-- The printable-character case of `editLine`. -/
def insertChar (st : LineEd) (c : Char) : LineEd := ⟨st.left ++ [c], st.right⟩

/-! ## Menu popup (menu-popup.ts) -/

/-- `multiMatch`: the candidate text must contain every word. -/
def multiMatch (line : List Char) (words : List (List Char)) : Bool :=
  words.all (fun w => listContains line w)

/-- `filterItems`: lower-case the query, split on spaces, keep candidates
whose (optionally extracted) lower-cased text contains every term. -/
def filterItems (getFilterText : Option (List Char → List Char))
    (items : List (List Char)) (filter : List Char) : List (List Char) :=
  let words := splitSp (toLowerL filter)
  items.filter (fun item =>
    let text := match getFilterText with
      | some f => f item
      | none => item
    multiMatch (toLowerL text) words)

/-- The `NO_MATCHES` sentinel entry. -/
def NO_MATCHES : List Char := "# 🤷 No matches".toList

/-- Newline placeholder glyph.  Modelled from the spec: the defining module
cmd-history.ts is not part of the source tree; the repository README
documents `GRAPHIC_NEWLINE = '↵'`. -/
def GRAPHIC_NEWLINE : Char := '↵'

/-- The state of the popup that the selection logic reads and writes. -/
structure MenuState where
  items : List (List Char)
  filteredItems : List (List Char)
  selection : Nat
  selectionAtStart : Bool
  getFilterText : Option (List Char → List Char)

/-- `updateMenu`: re-filter with the current line-editor text, substitute
the sentinel when the result is empty, and reset the selection (the render
calls of the source are not part of the state model). -/
def updateMenu (st : MenuState) (line : List Char) : MenuState :=
  let f := filterItems st.getFilterText st.items line
  let f2 := if f.length = 0 then [NO_MATCHES] else f
  { st with filteredItems := f2, selection := f2.length - 1 }

/-- `setItems`: replace the items, clear the filter, and reset the
selection according to `selectionAtStart` (header/line-editor rendering is
not part of the state model). -/
def setItems (st : MenuState) (newItems : List (List Char)) : MenuState :=
  { st with
    items := newItems
    filteredItems := newItems
    selection := if st.selectionAtStart then 0 else newItems.length - 1 }

/-- The initial selection computed by `createMenu`. -/
def createMenuSelection (st : MenuState) : Nat :=
  if st.selectionAtStart then 0 else st.items.length - 1

/-- The three navigation actions. -/
inductive SelectionAction where
  | select
  | navigate
  | navigateUp
deriving DecidableEq

/-- Side effects of `menuDone`, in order. -/
inductive PopupEffect where
  | normalScreenE
  | showCursorE
  | handleSelectionE (line : Option (List Char)) (action : SelectionAction)
deriving DecidableEq

/-- Whether an effect is the handler invocation. -/
def isHandleEffect : PopupEffect → Bool
  | .handleSelectionE _ _ => true
  | _ => false

/-- Replacement of every newline placeholder glyph by a real line break
(`replaceAll` with a single-character pattern). -/
def replaceGN (l : List Char) : List Char :=
  l.map (fun c => if c = GRAPHIC_NEWLINE then '\n' else c)

/-- The line passed to the result handler by `menuDone`: the selected entry
unless the index is negative or out of range or the entry is the sentinel;
a non-empty entry has its newline placeholders restored (the JavaScript
falsy check skips `replaceAll` for the empty string, which `replaceAll`
would leave unchanged anyway). -/
def menuDoneLine (filteredItems : List (List Char)) (item : Int) :
    Option (List Char) :=
  let line := if 0 ≤ item then filteredItems[item.toNat]? else none
  match line with
  | none => none
  | some l =>
    if l = NO_MATCHES then none
    else if l.isEmpty then some l
    else some (replaceGN l)

/-- `menuDone` as a trace of its side effects, in source order: leave the
alternate screen, show the cursor, then invoke the handler once. -/
def menuDone (filteredItems : List (List Char)) (item : Int)
    (action : SelectionAction) : List PopupEffect :=
  [.normalScreenE, .showCursorE,
   .handleSelectionE (menuDoneLine filteredItems item) action]

/-- Specification of one scan step: the token starts at the scan position,
its text is nonempty and is the corresponding prefix of the remaining
input, its inclusive span ends right before the new position. -/
def NTSpec (s : List Char) (pos : Nat) (r : ZshToken × Nat × Bool) : Prop :=
  r.1.start = pos ∧ r.2.1 = pos + r.1.text.length ∧ 0 < r.1.text.length ∧
  r.1.text = s.take r.1.text.length ∧ r.1.endPos + 1 = r.2.1

/-- Specification of the flag update of one scan step. -/
def FlagSpec (ec : Bool) (r : ZshToken × Nat × Bool) : Prop :=
  r.2.2 = flagStep r.1.type ec

/-- History-expansion tokens are at least two characters long. -/
def HistSpec (r : ZshToken × Nat × Bool) : Prop :=
  r.1.type = ZshTokenType.historyExpansion → 2 ≤ r.1.text.length

/-! ## Helper lemmas about the matchers -/

theorem take_norm (s : List Char) (k : Nat) : s.take k = s.take (s.take k).length := by
  induction s generalizing k with
  | nil => simp
  | cons a t ih =>
    cases k with
    | zero => simp
    | succ k => simp [List.take_succ_cons, ← ih k]

theorem lstartsWith_take (s p : List Char) (h : lstartsWith s p = true) :
    p = s.take p.length := by
  induction p generalizing s with
  | nil => simp
  | cons x xs ih =>
    cases s with
    | nil => simp [lstartsWith] at h
    | cons a as =>
      simp only [lstartsWith, Bool.and_eq_true, beq_iff_eq] at h
      obtain ⟨h1, h2⟩ := h
      subst h1
      simpa using ih as h2

theorem takeWhile_take (q : Char → Bool) (s : List Char) :
    s.takeWhile q = s.take (s.takeWhile q).length := by
  induction s with
  | nil => simp
  | cons a t ih =>
    by_cases h : q a
    · simp only [List.takeWhile_cons, h, if_true]
      simpa using ih
    · simp [List.takeWhile_cons, h]

theorem matchCommandSeparator_spec (s m : List Char)
    (h : matchCommandSeparator s = some m) : m = s.take m.length ∧ 0 < m.length := by
  unfold matchCommandSeparator at h
  split at h
  · rename_i sep hfind
    obtain rfl : sep = m := Option.some.inj h
    refine ⟨lstartsWith_take _ _ (List.find?_some hfind), ?_⟩
    have hm := List.mem_of_find?_eq_some hfind
    fin_cases hm <;> simp
  · refine ⟨lstartsWith_take _ _ (List.find?_some h), ?_⟩
    have hm := List.mem_of_find?_eq_some h
    fin_cases hm <;> simp

theorem matchRedirection_spec (s m : List Char)
    (h : matchRedirection s = some m) : m = s.take m.length ∧ 0 < m.length := by
  simp only [matchRedirection] at h
  split at h
  · rename_i p hfind
    obtain rfl : s.takeWhile isDigit ++ p = m := Option.some.inj h
    have hp : p = (s.drop (s.takeWhile isDigit).length).take p.length :=
      lstartsWith_take _ _ (List.find?_some hfind)
    have hnp : s.takeWhile isDigit = s.take (s.takeWhile isDigit).length :=
      takeWhile_take isDigit s
    constructor
    · rw [List.length_append, List.take_add]
      exact congrArg₂ (· ++ ·) hnp hp
    · have hm := List.mem_of_find?_eq_some hfind
      have : 0 < p.length := by fin_cases hm <;> simp
      simp only [List.length_append]
      omega
  · exact absurd h (by simp)

theorem histNeg_spec (rest m : List Char) (h : histNeg rest = some m) :
    m = ('!' :: rest).take m.length ∧ 2 ≤ m.length := by
  unfold histNeg at h
  split at h
  · rename_i rest2
    simp only [] at h
    split at h
    · exact absurd h (by simp)
    · rename_i hds
      obtain rfl := Option.some.inj h
      have := takeWhile_take isDigit rest2
      constructor
      · simpa [List.take_succ_cons] using congrArg (fun l => '!' :: '-' :: l) this
      · simp
  · exact absurd h (by simp)

theorem histNum_spec (rest m : List Char) (h : histNum rest = some m) :
    m = ('!' :: rest).take m.length ∧ 2 ≤ m.length := by
  unfold histNum at h
  simp only [] at h
  split at h
  · exact absurd h (by simp)
  · rename_i hds
    obtain rfl := Option.some.inj h
    have := takeWhile_take isDigit rest
    constructor
    · simpa [List.take_succ_cons] using congrArg (fun l => '!' :: l) this
    · have : ¬ (rest.takeWhile isDigit).isEmpty = true := hds
      simp only [List.isEmpty_iff] at this
      have : 0 < (rest.takeWhile isDigit).length := List.length_pos.mpr this
      simp only [List.length_cons]
      omega

theorem take_cons_cons (a b : Char) (l : List Char) (n : Nat) :
    (a :: b :: l).take (n + 2) = a :: b :: l.take n := by
  show (a :: b :: l).take (n + 1 + 1) = a :: b :: l.take n
  rw [List.take_succ_cons, List.take_succ_cons]

theorem histSearch_spec (rest m : List Char) (h : histSearch rest = some m) :
    m = ('!' :: rest).take m.length ∧ 2 ≤ m.length := by
  unfold histSearch at h
  split at h
  · rename_i rest2
    simp only [] at h
    split at h
    · exact absurd h (by simp)
    · rename_i hns
      obtain rfl := Option.some.inj h
      have htake := takeWhile_take (fun c => c != '?') rest2
      refine ⟨?_, by simp⟩
      split
      · rename_i hq
        have h1 : (['?'] : List Char) =
            (rest2.drop ((rest2.takeWhile (fun c => c != '?')).length)).take 1 :=
          lstartsWith_take _ _ hq
        have hlen :
            ('!' :: '?' :: (rest2.takeWhile (fun c => c != '?') ++ ['?'])).length
              = (rest2.takeWhile (fun c => c != '?')).length + 1 + 2 := by simp
        rw [hlen, take_cons_cons, List.take_add, ← htake, ← h1]
      · have hlen :
            ('!' :: '?' :: (rest2.takeWhile (fun c => c != '?') ++ ([] : List Char))).length
              = (rest2.takeWhile (fun c => c != '?')).length + 2 := by simp
        rw [hlen, take_cons_cons, ← htake]
        simp
  · exact absurd h (by simp)

theorem histIdent_spec (rest m : List Char) (h : histIdent rest = some m) :
    m = ('!' :: rest).take m.length ∧ 2 ≤ m.length := by
  unfold histIdent at h
  split at h
  · rename_i c2 rest2
    split at h
    · obtain rfl := Option.some.inj h
      have := takeWhile_take isIdentChar rest2
      constructor
      · simpa [List.take_succ_cons] using congrArg (fun l => '!' :: c2 :: l) this
      · simp
    · exact absurd h (by simp)
  · exact absurd h (by simp)

theorem matchHistoryExpansion_spec (s m : List Char)
    (h : matchHistoryExpansion s = some m) : m = s.take m.length ∧ 2 ≤ m.length := by
  unfold matchHistoryExpansion at h
  split at h
  · rename_i rest
    split at h
    · rename_i hq
      obtain rfl := Option.some.inj h
      exact ⟨by simpa [List.take_succ_cons] using
        congrArg (fun l => '!' :: l) (lstartsWith_take rest ['!'] hq), by simp⟩
    · split at h
      · rename_i hq
        obtain rfl := Option.some.inj h
        exact ⟨by simpa [List.take_succ_cons] using
          congrArg (fun l => '!' :: l) (lstartsWith_take rest ['$'] hq), by simp⟩
      · split at h
        · rename_i hq
          obtain rfl := Option.some.inj h
          exact ⟨by simpa [List.take_succ_cons] using
            congrArg (fun l => '!' :: l) (lstartsWith_take rest ['^'] hq), by simp⟩
        · split at h
          · rename_i hq
            obtain rfl := Option.some.inj h
            exact ⟨by simpa [List.take_succ_cons] using
              congrArg (fun l => '!' :: l) (lstartsWith_take rest ['*'] hq), by simp⟩
          · split at h
            · rename_i m2 hneg
              obtain rfl := Option.some.inj h
              exact histNeg_spec rest m2 hneg
            · split at h
              · rename_i m2 hnum
                obtain rfl := Option.some.inj h
                exact histNum_spec rest m2 hnum
              · split at h
                · rename_i m2 hse
                  obtain rfl := Option.some.inj h
                  exact histSearch_spec rest m2 hse
                · exact histIdent_spec rest m h
  · exact absurd h (by simp)

theorem matchRedirection_none (c : Char) (rest : List Char)
    (h1 : isDigit c = false) (h2 : ¬ c = '&') (h3 : ¬ c = '<') (h4 : ¬ c = '>') :
    matchRedirection (c :: rest) = none := by
  simp [matchRedirection, List.takeWhile_cons, h1, REDIRECTION_PATTERNS,
    List.find?_cons, lstartsWith, h2, h3, h4]

theorem matchCommandSeparator_none (c : Char) (rest : List Char)
    (h2 : ¬ c = ';') (h3 : ¬ c = '|') (h4 : ¬ c = '&') :
    matchCommandSeparator (c :: rest) = none := by
  simp [matchCommandSeparator, List.find?_cons, lstartsWith, h2, h3, h4]

/-! ## Properties of classifyWord and nextToken -/

theorem classifyWord_fields (w : List Char) (ec : Bool) (p : Nat) :
    (classifyWord w ec p).text = w ∧ (classifyWord w ec p).start = p ∧
    (classifyWord w ec p).endPos = p + w.length - 1 := by
  unfold classifyWord
  repeat' split
  all_goals simp

theorem classifyWord_type_cases (w : List Char) (ec : Bool) (p : Nat) :
    (classifyWord w ec p).type = .assign ∨ (classifyWord w ec p).type = .globbing ∨
    (classifyWord w ec p).type = .path ∨ (classifyWord w ec p).type = .reservedWord ∨
    (classifyWord w ec p).type = .precommand ∨ (classifyWord w ec p).type = .builtin ∨
    (classifyWord w ec p).type = .command ∨
    (classifyWord w ec p).type = .doubleHyphenOption ∨
    (classifyWord w ec p).type = .singleHyphenOption ∨
    (classifyWord w ec p).type = .default := by
  unfold classifyWord
  repeat' split
  all_goals simp

theorem NTSpec_mk (ty : ZshTokenType) (s txt : List Char) (pos : Nat)
    (x : Nat × Bool) (h3 : 0 < txt.length) (h4 : txt = s.take txt.length)
    (hx : x.1 = pos + txt.length) :
    NTSpec s pos (⟨ty, txt, pos, pos + txt.length - 1⟩, x) := by
  refine ⟨rfl, hx, h3, h4, ?_⟩
  dsimp only
  omega

theorem matchDollarQuotedString_spec (c : Char) (rest : List Char) :
    0 < (matchDollarQuotedString (c :: rest)).text.length ∧
    (matchDollarQuotedString (c :: rest)).text
      = (c :: rest).take ((matchDollarQuotedString (c :: rest)).text.length) := by
  unfold matchDollarQuotedString
  cases scanClose singleQuote true ((c :: rest).drop 2) with
  | none => exact ⟨by simp, (List.take_length _).symm⟩
  | some n =>
    dsimp only
    refine ⟨?_, take_norm _ _⟩
    simp only [List.length_take, List.length_cons]
    omega

theorem matchSingleQuotedString_spec (c : Char) (rest : List Char) :
    0 < (matchSingleQuotedString (c :: rest)).text.length ∧
    (matchSingleQuotedString (c :: rest)).text
      = (c :: rest).take ((matchSingleQuotedString (c :: rest)).text.length) := by
  unfold matchSingleQuotedString
  cases scanClose singleQuote false ((c :: rest).drop 1) with
  | none => exact ⟨by simp, (List.take_length _).symm⟩
  | some n =>
    dsimp only
    refine ⟨?_, take_norm _ _⟩
    simp only [List.length_take, List.length_cons]
    omega

theorem matchDoubleQuotedString_spec (c : Char) (rest : List Char) :
    0 < (matchDoubleQuotedString (c :: rest)).text.length ∧
    (matchDoubleQuotedString (c :: rest)).text
      = (c :: rest).take ((matchDoubleQuotedString (c :: rest)).text.length) := by
  unfold matchDoubleQuotedString
  cases scanClose doubleQuote true ((c :: rest).drop 1) with
  | none => exact ⟨by simp, (List.take_length _).symm⟩
  | some n =>
    dsimp only
    refine ⟨?_, take_norm _ _⟩
    simp only [List.length_take, List.length_cons]
    omega

theorem matchBacktickSubstitution_spec (c : Char) (rest : List Char) :
    0 < (matchBacktickSubstitution (c :: rest)).text.length ∧
    (matchBacktickSubstitution (c :: rest)).text
      = (c :: rest).take ((matchBacktickSubstitution (c :: rest)).text.length) := by
  unfold matchBacktickSubstitution
  cases scanClose backQuote true ((c :: rest).drop 1) with
  | none => exact ⟨by simp, (List.take_length _).symm⟩
  | some n =>
    dsimp only
    refine ⟨?_, take_norm _ _⟩
    simp only [List.length_take, List.length_cons]
    omega

theorem nextToken_full (c : Char) (rest : List Char) (pos : Nat) (ec : Bool) :
    NTSpec (c :: rest) pos (nextToken (c :: rest) pos ec) ∧
    FlagSpec ec (nextToken (c :: rest) pos ec) ∧
    HistSpec (nextToken (c :: rest) pos ec) := by
  unfold nextToken
  dsimp only
  by_cases h1 : c = '#'
  · rw [if_pos h1]
    exact ⟨⟨rfl, by simp only [List.length_cons]; omega, by simp, by simp, rfl⟩,
      rfl, fun h => absurd h (by simp)⟩
  rw [if_neg h1]
  by_cases h2 : (c = '<' ∨ c = '>') ∧ lstartsWith rest ['('] = true
  · rw [if_pos h2]
    simp only [matchProcessSubstitution]
    refine ⟨NTSpec_mk _ _ _ _ _ ?_ (take_norm _ _) rfl, rfl, fun h => absurd h (by simp)⟩
    simp only [List.length_take, List.length_cons]
    omega
  rw [if_neg h2]
  cases hr : matchRedirection (c :: rest) with
  | some m =>
    dsimp only
    obtain ⟨h4, h3⟩ := matchRedirection_spec _ m hr
    exact ⟨NTSpec_mk _ _ _ _ _ h3 h4 rfl, rfl, fun h => absurd h (by simp)⟩
  | none =>
    dsimp only
    cases hs : matchCommandSeparator (c :: rest) with
    | some m =>
      dsimp only
      obtain ⟨h4, h3⟩ := matchCommandSeparator_spec _ m hs
      exact ⟨NTSpec_mk _ _ _ _ _ h3 h4 rfl, rfl, fun h => absurd h (by simp)⟩
    | none =>
      dsimp only
      by_cases h5 : c = '$' ∧ lstartsWith rest ['(', '('] = true
      · rw [if_pos h5]
        simp only [matchArithmeticExpansion]
        refine ⟨NTSpec_mk _ _ _ _ _ ?_ (take_norm _ _) rfl, rfl,
          fun h => absurd h (by simp)⟩
        simp only [List.length_take, List.length_cons]
        omega
      rw [if_neg h5]
      by_cases h6 : c = '$' ∧ lstartsWith rest ['('] = true ∧ ¬ rest[1]? = some '('
      · rw [if_pos h6]
        simp only [matchCommandSubstitution]
        refine ⟨NTSpec_mk _ _ _ _ _ ?_ (take_norm _ _) rfl, rfl,
          fun h => absurd h (by simp)⟩
        simp only [List.length_take, List.length_cons]
        omega
      rw [if_neg h6]
      by_cases h7 : c = '$' ∧ lstartsWith rest [singleQuote] = true
      · rw [if_pos h7]
        obtain ⟨hq1, hq2⟩ := matchDollarQuotedString_spec c rest
        refine ⟨NTSpec_mk _ _ _ _ _ hq1 hq2 rfl, ?_, ?_⟩
        · simp only [FlagSpec]
          split <;> rfl
        · simp only [HistSpec]
          split <;> simp
      rw [if_neg h7]
      by_cases h8 : c = singleQuote
      · rw [if_pos h8]
        obtain ⟨hq1, hq2⟩ := matchSingleQuotedString_spec c rest
        refine ⟨NTSpec_mk _ _ _ _ _ hq1 hq2 rfl, ?_, ?_⟩
        · simp only [FlagSpec]
          split <;> rfl
        · simp only [HistSpec]
          split <;> simp
      rw [if_neg h8]
      by_cases h9 : c = doubleQuote
      · rw [if_pos h9]
        obtain ⟨hq1, hq2⟩ := matchDoubleQuotedString_spec c rest
        refine ⟨NTSpec_mk _ _ _ _ _ hq1 hq2 rfl, ?_, ?_⟩
        · simp only [FlagSpec]
          split <;> rfl
        · simp only [HistSpec]
          split <;> simp
      rw [if_neg h9]
      by_cases h10 : c = backQuote
      · rw [if_pos h10]
        obtain ⟨hq1, hq2⟩ := matchBacktickSubstitution_spec c rest
        refine ⟨NTSpec_mk _ _ _ _ _ hq1 hq2 rfl, ?_, ?_⟩
        · simp only [FlagSpec]
          split <;> rfl
        · simp only [HistSpec]
          split <;> simp
      rw [if_neg h10]
      cases hh : (if c = '!' ∧ 0 < rest.length then matchHistoryExpansion (c :: rest)
                  else none) with
      | some m =>
        dsimp only
        have hm2 : matchHistoryExpansion (c :: rest) = some m := by
          by_cases hc : c = '!' ∧ 0 < rest.length
          · simpa [hc] using hh
          · simp [hc] at hh
        obtain ⟨h4, h3⟩ := matchHistoryExpansion_spec _ m hm2
        exact ⟨NTSpec_mk _ _ _ _ _ (by omega) h4 rfl, rfl, fun _ => h3⟩
      | none =>
        dsimp only
        by_cases hn : 0 < matchWord (c :: rest)
        · rw [if_pos hn]
          obtain ⟨hw1, hw2, hw3⟩ :=
            classifyWord_fields ((c :: rest).take (matchWord (c :: rest))) ec pos
          have hlen : 0 < ((c :: rest).take (matchWord (c :: rest))).length := by
            simp only [List.length_take, List.length_cons]
            omega
          refine ⟨⟨hw2, by rw [hw1], ?_, ?_, ?_⟩, ?_, ?_⟩
          · rw [hw1]
            exact hlen
          · rw [hw1]
            exact take_norm _ _
          · show (classifyWord _ ec pos).endPos + 1 = pos + _
            rw [hw3]
            omega
          · rcases classifyWord_type_cases
                ((c :: rest).take (matchWord (c :: rest))) ec pos with
              h | h | h | h | h | h | h | h | h | h <;>
              simp [FlagSpec, h, flagStep]
          · intro h
            rcases classifyWord_type_cases
                ((c :: rest).take (matchWord (c :: rest))) ec pos with
              h2 | h2 | h2 | h2 | h2 | h2 | h2 | h2 | h2 | h2 <;>
              simp_all
        · rw [if_neg hn]
          exact ⟨⟨rfl, rfl, by simp, by simp, rfl⟩, rfl, fun h => absurd h (by simp)⟩

theorem nextToken_spec (c : Char) (rest : List Char) (pos : Nat) (ec : Bool) :
    NTSpec (c :: rest) pos (nextToken (c :: rest) pos ec) :=
  (nextToken_full c rest pos ec).1

theorem nextToken_flag (s : List Char) (pos : Nat) (ec : Bool) :
    FlagSpec ec (nextToken s pos ec) := by
  cases s with
  | nil => simp [nextToken, FlagSpec, flagStep]
  | cons c rest => exact (nextToken_full c rest pos ec).2.1

theorem nextToken_hist_long (c : Char) (rest : List Char) (pos : Nat) (ec : Bool) :
    HistSpec (nextToken (c :: rest) pos ec) :=
  (nextToken_full c rest pos ec).2.2

/-! ## The scan loop: fuel adequacy and the coverage invariant -/

theorem tokenizeAux_nil (f : Nat) (pos : Nat) (ec : Bool) :
    tokenizeAux f [] pos ec = [] := by
  cases f <;> rfl

theorem tokenizeAux_cons_ws (f : Nat) (c : Char) (rest : List Char) (pos : Nat)
    (ec : Bool) (hws : isWS c = true) :
    tokenizeAux (f + 1) (c :: rest) pos ec = tokenizeAux f rest (pos + 1) ec := by
  simp [tokenizeAux, hws]

theorem tokenizeAux_cons_tok (f : Nat) (c : Char) (rest : List Char) (pos : Nat)
    (ec : Bool) (hws : ¬ isWS c = true) :
    tokenizeAux (f + 1) (c :: rest) pos ec =
      (nextToken (c :: rest) pos ec).1 ::
        tokenizeAux f ((c :: rest).drop ((nextToken (c :: rest) pos ec).2.1 - pos))
          (nextToken (c :: rest) pos ec).2.1 (nextToken (c :: rest) pos ec).2.2 := by
  simp [tokenizeAux, hws]

theorem nextToken_adv (c : Char) (rest : List Char) (pos : Nat) (ec : Bool) :
    pos < (nextToken (c :: rest) pos ec).2.1 ∧
    (nextToken (c :: rest) pos ec).2.1 ≤ pos + (c :: rest).length := by
  obtain ⟨-, h2, h3, h4, -⟩ := nextToken_spec c rest pos ec
  have hle := congrArg List.length h4
  simp only [List.length_take] at hle
  have h5 := le_trans (le_of_eq hle) (min_le_right _ _)
  omega

theorem tokenizeAux_fuel : ∀ (f : Nat) (s : List Char) (pos : Nat) (ec : Bool),
    s.length ≤ f → tokenizeAux f s pos ec = tokenizeAux s.length s pos ec := by
  intro f
  induction f using Nat.strong_induction_on with
  | _ f ih =>
    intro s pos ec hle
    cases s with
    | nil => rw [tokenizeAux_nil, tokenizeAux_nil]
    | cons c rest =>
      cases f with
      | zero => simp at hle
      | succ f2 =>
        simp only [List.length_cons] at hle ⊢
        by_cases hws : isWS c = true
        · rw [tokenizeAux_cons_ws f2 c rest pos ec hws,
            tokenizeAux_cons_ws rest.length c rest pos ec hws]
          exact (ih f2 (by omega) rest (pos + 1) ec (by omega)).trans
            (ih rest.length (by omega) rest (pos + 1) ec (by omega)).symm
        · rw [tokenizeAux_cons_tok f2 c rest pos ec hws,
            tokenizeAux_cons_tok rest.length c rest pos ec hws]
          obtain ⟨ha1, ha2⟩ := nextToken_adv c rest pos ec
          have hd : ((c :: rest).drop
              ((nextToken (c :: rest) pos ec).2.1 - pos)).length ≤ rest.length := by
            simp only [List.length_drop, List.length_cons]
            omega
          rw [ih f2 (by omega) _ _ _ (by omega)]
          rw [ih rest.length (by omega) _ _ _ hd]

theorem getD_of_drop (input : List Char) (pos : Nat) (c : Char) (rest : List Char)
    (hdrop : input.drop pos = c :: rest) : input.getD pos ' ' = c := by
  have h1 : input[pos]? = some c := by
    rw [← List.head?_drop, hdrop]
    rfl
  simp [List.getD_eq_getElem?_getD, h1]

theorem covers_weaken (input : List Char) (pos : Nat) (ts : List ZshToken)
    (hws : isWS (input.getD pos ' ') = true) (h : covers input (pos + 1) ts) :
    covers input pos ts := by
  cases ts with
  | nil =>
    intro k hk1 hk2
    rcases Nat.eq_or_lt_of_le hk1 with rfl | hlt
    · exact hws
    · exact h k hlt hk2
  | cons t ts =>
    obtain ⟨h1, h2, h3, h4, h5, h6⟩ := h
    refine ⟨by omega, h2, h3, fun k hk1 hk2 => ?_, h5, h6⟩
    rcases Nat.eq_or_lt_of_le hk1 with rfl | hlt
    · exact hws
    · exact h4 k hlt hk2

theorem tokenizeAux_covers (input : List Char) :
    ∀ (f pos : Nat) (ec : Bool), input.length - pos ≤ f →
      covers input pos (tokenizeAux f (input.drop pos) pos ec) := by
  intro f
  induction f with
  | zero =>
    intro pos ec hf
    rw [show tokenizeAux 0 (input.drop pos) pos ec = [] from rfl]
    intro k hk1 hk2
    omega
  | succ f ih =>
    intro pos ec hf
    cases hdrop : input.drop pos with
    | nil =>
      rw [tokenizeAux_nil]
      have hle : input.length ≤ pos := List.drop_eq_nil_iff.mp hdrop
      intro k hk1 hk2
      omega
    | cons c rest =>
      have hlen : input.length - pos = rest.length + 1 := by
        have h2 := congrArg List.length hdrop
        simp only [List.length_drop, List.length_cons] at h2
        omega
      by_cases hws : isWS c = true
      · rw [tokenizeAux_cons_ws f c rest pos ec hws]
        have hrest : input.drop (pos + 1) = rest := by
          rw [← List.tail_drop, hdrop, List.tail_cons]
        apply covers_weaken
        · rw [getD_of_drop input pos c rest hdrop]
          exact hws
        · have := ih (pos + 1) ec (by omega)
          rwa [hrest] at this
      · rw [tokenizeAux_cons_tok f c rest pos ec hws]
        obtain ⟨hs1, hs2, hs3, hs4, hs5⟩ := nextToken_spec c rest pos ec
        obtain ⟨ha1, ha2⟩ := nextToken_adv c rest pos ec
        have hdrop2 : ∀ k, pos ≤ k →
            (c :: rest).drop (k - pos) = input.drop k := by
          intro k hk
          rw [← hdrop, List.drop_drop]
          congr 1
          omega
        rw [hdrop2 _ (le_of_lt ha1)]
        refine ⟨le_of_eq hs1.symm, ?_, ?_, ?_, ?_, ?_⟩
        · omega
        · simp only [List.length_cons] at ha2
          omega
        · intro k hk1 hk2
          rw [hs1] at hk2
          omega
        · rw [hs1, hdrop]
          have h9 : (nextToken (c :: rest) pos ec).1.endPos + 1 - pos
              = (nextToken (c :: rest) pos ec).1.text.length := by
            omega
          rw [h9]
          exact hs4
        · rw [hs5]
          have := ih (nextToken (c :: rest) pos ec).2.1
            (nextToken (c :: rest) pos ec).2.2 (by omega)
          exact this

theorem tokenize_covers (input : List Char) : covers input 0 (tokenize input) := by
  have h := tokenizeAux_covers input input.length 0 true (by omega)
  simpa [tokenize] using h

/-! ## Consequences of the coverage invariant -/

theorem covers_chain (input : List Char) : ∀ (pos : Nat) (ts : List ZshToken),
    covers input pos ts → List.Chain' (fun a b => a.endPos < b.start) ts := by
  intro pos ts
  induction ts generalizing pos with
  | nil => intro _; simp
  | cons t ts ih =>
    intro h
    obtain ⟨h1, h2, h3, h4, h5, h6⟩ := h
    cases ts with
    | nil => simp
    | cons u ts2 =>
      have hu1 : t.endPos + 1 ≤ u.start := h6.1
      exact (List.chain'_cons).mpr ⟨by omega, ih (t.endPos + 1) h6⟩

theorem covers_mem (input : List Char) : ∀ (pos : Nat) (ts : List ZshToken)
    (t : ZshToken), covers input pos ts → t ∈ ts →
      pos ≤ t.start ∧ t.start ≤ t.endPos ∧ t.endPos < input.length ∧
      t.text = (input.drop t.start).take (t.endPos + 1 - t.start) := by
  intro pos ts
  induction ts generalizing pos with
  | nil => intro t _ hm; simp at hm
  | cons u ts ih =>
    intro t h hm
    obtain ⟨h1, h2, h3, h4, h5, h6⟩ := h
    rcases List.mem_cons.mp hm with rfl | hm2
    · exact ⟨h1, h2, h3, h5⟩
    · obtain ⟨g1, g2, g3, g4⟩ := ih (u.endPos + 1) t h6 hm2
      exact ⟨by omega, g2, g3, g4⟩

theorem covers_gap (input : List Char) : ∀ (pos : Nat) (ts : List ZshToken),
    covers input pos ts →
    ∀ k, pos ≤ k → k < input.length → (∀ t ∈ ts, k < t.start ∨ t.endPos < k) →
      isWS (input.getD k ' ') = true := by
  intro pos ts
  induction ts generalizing pos with
  | nil =>
    intro h k hk1 hk2 _
    exact h k hk1 hk2
  | cons t ts ih =>
    intro h k hk1 hk2 hall
    obtain ⟨h1, h2, h3, h4, h5, h6⟩ := h
    rcases hall t (List.mem_cons_self t ts) with hlt | hgt
    · exact h4 k hk1 hlt
    · exact ih (t.endPos + 1) h6 k (by omega) hk2
        (fun u hu => hall u (List.mem_cons_of_mem t hu))

theorem covers_reassemble (input : List Char) : ∀ (pos : Nat) (ts : List ZshToken),
    covers input pos ts → reassemble input pos ts = input.drop pos := by
  intro pos ts
  induction ts generalizing pos with
  | nil => intro _; rfl
  | cons t ts ih =>
    intro h
    obtain ⟨h1, h2, h3, h4, h5, h6⟩ := h
    have hr := ih (t.endPos + 1) h6
    have e1 : input.drop pos = (input.drop pos).take (t.start - pos)
        ++ input.drop t.start := by
      conv_lhs => rw [← List.take_append_drop (t.start - pos) (input.drop pos)]
      rw [List.drop_drop]
      congr 2
      omega
    have e2 : input.drop t.start
        = (input.drop t.start).take (t.endPos + 1 - t.start)
          ++ input.drop (t.endPos + 1) := by
      conv_lhs => rw [← List.take_append_drop (t.endPos + 1 - t.start)
        (input.drop t.start)]
      rw [List.drop_drop]
      congr 2
      omega
    show (input.drop pos).take (t.start - pos) ++ [] ++ t.text ++ []
        ++ reassemble input (t.endPos + 1) ts = input.drop pos
    rw [hr, h5]
    simp only [List.append_nil, List.append_assoc]
    rw [← e2, ← e1]

/-! ## Token list properties used by the history-expansion claim -/

theorem tokenizeAux_hist : ∀ (f : Nat) (s : List Char) (pos : Nat) (ec : Bool)
    (t : ZshToken), t ∈ tokenizeAux f s pos ec →
      t.type = ZshTokenType.historyExpansion → t.start < t.endPos := by
  intro f
  induction f with
  | zero =>
    intro s pos ec t hm
    simp [tokenizeAux] at hm
  | succ f ih =>
    intro s pos ec t hm hty
    cases s with
    | nil => rw [tokenizeAux_nil] at hm; simp at hm
    | cons c rest =>
      by_cases hws : isWS c = true
      · rw [tokenizeAux_cons_ws f c rest pos ec hws] at hm
        exact ih rest (pos + 1) ec t hm hty
      · rw [tokenizeAux_cons_tok f c rest pos ec hws] at hm
        rcases List.mem_cons.mp hm with rfl | hm2
        · obtain ⟨hs1, hs2, hs3, hs4, hs5⟩ := nextToken_spec c rest pos ec
          have hl := nextToken_hist_long c rest pos ec hty
          omega
        · exact ih _ _ _ t hm2 hty

/-! ## Branch characterization at quote-opening scan positions -/

theorem lstartsWith_single_true (a : Char) (l : List Char) :
    lstartsWith (a :: l) [a] = true := by
  simp [lstartsWith]

theorem nextToken_singleQuote (rest : List Char) (pos : Nat) (ec : Bool) :
    nextToken (singleQuote :: rest) pos ec =
      (⟨if (matchSingleQuotedString (singleQuote :: rest)).unclosed
            then ZshTokenType.singleQuotedArgumentUnclosed
            else ZshTokenType.singleQuotedArgument,
        (matchSingleQuotedString (singleQuote :: rest)).text, pos,
        pos + (matchSingleQuotedString (singleQuote :: rest)).text.length - 1⟩,
       pos + (matchSingleQuotedString (singleQuote :: rest)).text.length, false) := by
  unfold nextToken
  dsimp only
  rw [if_neg (by decide : ¬ (singleQuote = '#'))]
  rw [if_neg (fun hc => by
    rcases hc with ⟨h | h, -⟩ <;> exact absurd h (by decide))]
  rw [matchRedirection_none singleQuote rest (by decide) (by decide) (by decide)
    (by decide)]
  dsimp only
  rw [matchCommandSeparator_none singleQuote rest (by decide) (by decide) (by decide)]
  dsimp only
  rw [if_neg (fun hc => absurd hc.1 (by decide : ¬ (singleQuote = '$')))]
  rw [if_neg (fun hc => absurd hc.1 (by decide : ¬ (singleQuote = '$')))]
  rw [if_neg (fun hc => absurd hc.1 (by decide : ¬ (singleQuote = '$')))]
  rw [if_pos rfl]

theorem nextToken_doubleQuote (rest : List Char) (pos : Nat) (ec : Bool) :
    nextToken (doubleQuote :: rest) pos ec =
      (⟨if (matchDoubleQuotedString (doubleQuote :: rest)).unclosed
            then ZshTokenType.doubleQuotedArgumentUnclosed
            else ZshTokenType.doubleQuotedArgument,
        (matchDoubleQuotedString (doubleQuote :: rest)).text, pos,
        pos + (matchDoubleQuotedString (doubleQuote :: rest)).text.length - 1⟩,
       pos + (matchDoubleQuotedString (doubleQuote :: rest)).text.length, false) := by
  unfold nextToken
  dsimp only
  rw [if_neg (by decide : ¬ (doubleQuote = '#'))]
  rw [if_neg (fun hc => by
    rcases hc with ⟨h | h, -⟩ <;> exact absurd h (by decide))]
  rw [matchRedirection_none doubleQuote rest (by decide) (by decide) (by decide)
    (by decide)]
  dsimp only
  rw [matchCommandSeparator_none doubleQuote rest (by decide) (by decide) (by decide)]
  dsimp only
  rw [if_neg (fun hc => absurd hc.1 (by decide : ¬ (doubleQuote = '$')))]
  rw [if_neg (fun hc => absurd hc.1 (by decide : ¬ (doubleQuote = '$')))]
  rw [if_neg (fun hc => absurd hc.1 (by decide : ¬ (doubleQuote = '$')))]
  rw [if_neg (by decide : ¬ (doubleQuote = singleQuote))]
  rw [if_pos rfl]

theorem nextToken_backQuote (rest : List Char) (pos : Nat) (ec : Bool) :
    nextToken (backQuote :: rest) pos ec =
      (⟨if (matchBacktickSubstitution (backQuote :: rest)).unclosed
            then ZshTokenType.backQuotedArgumentUnclosed
            else ZshTokenType.backQuotedArgument,
        (matchBacktickSubstitution (backQuote :: rest)).text, pos,
        pos + (matchBacktickSubstitution (backQuote :: rest)).text.length - 1⟩,
       pos + (matchBacktickSubstitution (backQuote :: rest)).text.length, false) := by
  unfold nextToken
  dsimp only
  rw [if_neg (by decide : ¬ (backQuote = '#'))]
  rw [if_neg (fun hc => by
    rcases hc with ⟨h | h, -⟩ <;> exact absurd h (by decide))]
  rw [matchRedirection_none backQuote rest (by decide) (by decide) (by decide)
    (by decide)]
  dsimp only
  rw [matchCommandSeparator_none backQuote rest (by decide) (by decide) (by decide)]
  dsimp only
  rw [if_neg (fun hc => absurd hc.1 (by decide : ¬ (backQuote = '$')))]
  rw [if_neg (fun hc => absurd hc.1 (by decide : ¬ (backQuote = '$')))]
  rw [if_neg (fun hc => absurd hc.1 (by decide : ¬ (backQuote = '$')))]
  rw [if_neg (by decide : ¬ (backQuote = singleQuote))]
  rw [if_neg (by decide : ¬ (backQuote = doubleQuote))]
  rw [if_pos rfl]

theorem nextToken_dollarQuote (rest2 : List Char) (pos : Nat) (ec : Bool) :
    nextToken ('$' :: singleQuote :: rest2) pos ec =
      (⟨if (matchDollarQuotedString ('$' :: singleQuote :: rest2)).unclosed
            then ZshTokenType.dollarQuotedArgumentUnclosed
            else ZshTokenType.dollarQuotedArgument,
        (matchDollarQuotedString ('$' :: singleQuote :: rest2)).text, pos,
        pos + (matchDollarQuotedString ('$' :: singleQuote :: rest2)).text.length - 1⟩,
       pos + (matchDollarQuotedString ('$' :: singleQuote :: rest2)).text.length,
       false) := by
  have hl1 : lstartsWith (singleQuote :: rest2) ['(', '('] = false := by
    simp [lstartsWith, (by decide : (singleQuote == '(') = false)]
  have hl2 : lstartsWith (singleQuote :: rest2) ['('] = false := by
    simp [lstartsWith, (by decide : (singleQuote == '(') = false)]
  unfold nextToken
  dsimp only
  rw [if_neg (by decide : ¬ ('$' = '#'))]
  rw [if_neg (fun hc => by
    rcases hc with ⟨h | h, -⟩ <;> exact absurd h (by decide))]
  rw [matchRedirection_none '$' (singleQuote :: rest2) (by decide) (by decide)
    (by decide) (by decide)]
  dsimp only
  rw [matchCommandSeparator_none '$' (singleQuote :: rest2) (by decide) (by decide)
    (by decide)]
  dsimp only
  rw [if_neg (fun hc => by rw [hl1] at hc; exact Bool.false_ne_true hc.2)]
  rw [if_neg (fun hc => by rw [hl2] at hc; exact Bool.false_ne_true hc.2.1)]
  rw [if_pos ⟨rfl, lstartsWith_single_true singleQuote rest2⟩]

/-! ## Claim C5 -/

/-- C5: for each of the four quoted-argument forms, the emitted token's
category is the `-unclosed` variant exactly when the closing-delimiter scan
reaches end-of-input, in which case the token spans to the end of the
input; when the closing delimiter is found the non-unclosed category is
used.  The scan position `pos` holds the opening character, and the
remaining input is the suffix starting there.  In particular, the second
token of `tokenize "echo 'unclosed"` is `single-quoted-argument-unclosed`. -/
theorem c5_unclosed_quote_variants :
    (∀ (rest : List Char) (pos : Nat) (ec : Bool),
      ((nextToken (singleQuote :: rest) pos ec).1.type
          = ZshTokenType.singleQuotedArgumentUnclosed
        ↔ scanClose singleQuote false rest = none)
      ∧ (scanClose singleQuote false rest = none →
          (nextToken (singleQuote :: rest) pos ec).1.endPos = pos + rest.length)
      ∧ (∀ n, scanClose singleQuote false rest = some n →
          (nextToken (singleQuote :: rest) pos ec).1.type
            = ZshTokenType.singleQuotedArgument))
    ∧ (∀ (rest : List Char) (pos : Nat) (ec : Bool),
      ((nextToken (doubleQuote :: rest) pos ec).1.type
          = ZshTokenType.doubleQuotedArgumentUnclosed
        ↔ scanClose doubleQuote true rest = none)
      ∧ (scanClose doubleQuote true rest = none →
          (nextToken (doubleQuote :: rest) pos ec).1.endPos = pos + rest.length)
      ∧ (∀ n, scanClose doubleQuote true rest = some n →
          (nextToken (doubleQuote :: rest) pos ec).1.type
            = ZshTokenType.doubleQuotedArgument))
    ∧ (∀ (rest : List Char) (pos : Nat) (ec : Bool),
      ((nextToken (backQuote :: rest) pos ec).1.type
          = ZshTokenType.backQuotedArgumentUnclosed
        ↔ scanClose backQuote true rest = none)
      ∧ (scanClose backQuote true rest = none →
          (nextToken (backQuote :: rest) pos ec).1.endPos = pos + rest.length)
      ∧ (∀ n, scanClose backQuote true rest = some n →
          (nextToken (backQuote :: rest) pos ec).1.type
            = ZshTokenType.backQuotedArgument))
    ∧ (∀ (rest2 : List Char) (pos : Nat) (ec : Bool),
      ((nextToken ('$' :: singleQuote :: rest2) pos ec).1.type
          = ZshTokenType.dollarQuotedArgumentUnclosed
        ↔ scanClose singleQuote true rest2 = none)
      ∧ (scanClose singleQuote true rest2 = none →
          (nextToken ('$' :: singleQuote :: rest2) pos ec).1.endPos
            = pos + rest2.length + 1)
      ∧ (∀ n, scanClose singleQuote true rest2 = some n →
          (nextToken ('$' :: singleQuote :: rest2) pos ec).1.type
            = ZshTokenType.dollarQuotedArgument))
    ∧ tokenize ("echo 'unclosed".toList) =
        [⟨ZshTokenType.builtin, "echo".toList, 0, 3⟩,
         ⟨ZshTokenType.singleQuotedArgumentUnclosed, "'unclosed".toList, 5, 13⟩] := by
  refine ⟨fun rest pos ec => ?_, fun rest pos ec => ?_, fun rest pos ec => ?_,
    fun rest2 pos ec => ?_, by decide⟩
  · rw [nextToken_singleQuote rest pos ec]
    unfold matchSingleQuotedString
    rw [show (singleQuote :: rest).drop 1 = rest from rfl]
    cases hsc : scanClose singleQuote false rest with
    | none =>
      dsimp only
      refine ⟨by simp, fun _ => ?_, fun n hn => by simp at hn⟩
      simp only [List.length_cons]
      omega
    | some n =>
      dsimp only
      exact ⟨by simp, fun h => by simp at h, fun n2 hn2 => by simp⟩
  · rw [nextToken_doubleQuote rest pos ec]
    unfold matchDoubleQuotedString
    rw [show (doubleQuote :: rest).drop 1 = rest from rfl]
    cases hsc : scanClose doubleQuote true rest with
    | none =>
      dsimp only
      refine ⟨by simp, fun _ => ?_, fun n hn => by simp at hn⟩
      simp only [List.length_cons]
      omega
    | some n =>
      dsimp only
      exact ⟨by simp, fun h => by simp at h, fun n2 hn2 => by simp⟩
  · rw [nextToken_backQuote rest pos ec]
    unfold matchBacktickSubstitution
    rw [show (backQuote :: rest).drop 1 = rest from rfl]
    cases hsc : scanClose backQuote true rest with
    | none =>
      dsimp only
      refine ⟨by simp, fun _ => ?_, fun n hn => by simp at hn⟩
      simp only [List.length_cons]
      omega
    | some n =>
      dsimp only
      exact ⟨by simp, fun h => by simp at h, fun n2 hn2 => by simp⟩
  · rw [nextToken_dollarQuote rest2 pos ec]
    unfold matchDollarQuotedString
    rw [show ('$' :: singleQuote :: rest2).drop 2 = rest2 from rfl]
    cases hsc : scanClose singleQuote true rest2 with
    | none =>
      dsimp only
      refine ⟨by simp, fun _ => ?_, fun n hn => by simp at hn⟩
      simp only [List.length_cons]
      omega
    | some n =>
      dsimp only
      exact ⟨by simp, fun h => by simp at h, fun n2 hn2 => by simp⟩

/-- Witness for C5 at concrete inputs: a lone single quote is unclosed and
spans to end-of-input; a closed pair is the non-unclosed category. -/
theorem c5_unclosed_quote_variants_witness :
    (nextToken [singleQuote] 0 true).1.type
      = ZshTokenType.singleQuotedArgumentUnclosed
    ∧ (nextToken [singleQuote] 0 true).1.endPos = 0
    ∧ (nextToken [singleQuote, singleQuote] 0 true).1.type
        = ZshTokenType.singleQuotedArgument
    ∧ (nextToken [doubleQuote] 0 true).1.type
        = ZshTokenType.doubleQuotedArgumentUnclosed := by
  refine ⟨?_, ?_, ?_, ?_⟩
  · exact (c5_unclosed_quote_variants.1 [] 0 true).1.mpr (by decide)
  · exact (c5_unclosed_quote_variants.1 [] 0 true).2.1 (by decide)
  · exact (c5_unclosed_quote_variants.1 [singleQuote] 0 true).2.2 1 (by decide)
  · exact (c5_unclosed_quote_variants.2.1 [] 0 true).1.mpr (by decide)

/-! ## Claim C8 -/

theorem nextToken_unknown_fallback (c : Char) (rest : List Char) (pos : Nat)
    (ec : Bool)
    (h1 : ¬ c = '#')
    (h2 : ¬ ((c = '<' ∨ c = '>') ∧ lstartsWith rest ['('] = true))
    (h3 : matchRedirection (c :: rest) = none)
    (h4 : matchCommandSeparator (c :: rest) = none)
    (h5 : ¬ (c = '$' ∧ lstartsWith rest ['(', '('] = true))
    (h6 : ¬ (c = '$' ∧ lstartsWith rest ['('] = true ∧ ¬ rest[1]? = some '('))
    (h7 : ¬ (c = '$' ∧ lstartsWith rest [singleQuote] = true))
    (h8 : ¬ c = singleQuote) (h9 : ¬ c = doubleQuote) (h10 : ¬ c = backQuote)
    (h11 : (if c = '!' ∧ 0 < rest.length then matchHistoryExpansion (c :: rest)
            else none) = none)
    (h12 : matchWord (c :: rest) = 0) :
    nextToken (c :: rest) pos ec = (⟨ZshTokenType.unknownToken, [c], pos, pos⟩,
      pos + 1, ec) := by
  unfold nextToken
  dsimp only
  rw [if_neg h1, if_neg h2, h3]
  dsimp only
  rw [h4]
  dsimp only
  rw [if_neg h5, if_neg h6, if_neg h7, if_neg h8, if_neg h9, if_neg h10, h11]
  dsimp only
  rw [h12]
  rw [if_neg (by omega)]

/-- C8: the tokenizer is total and always terminates.  (a) Every scan step
advances the position by at least one character.  (b) The scan loop's
result is independent of the fuel bound once the fuel covers the remaining
input length, so the loop, run with the fuel `tokenize` supplies, computes
the fixpoint of the unbounded while loop.  (c) A character matched by no
earlier rule and starting no word is emitted as a one-character
unknown-token and the scan advances by exactly one. -/
theorem c8_tokenize_total :
    (∀ (c : Char) (rest : List Char) (pos : Nat) (ec : Bool),
        pos < (nextToken (c :: rest) pos ec).2.1)
    ∧ (∀ (f : Nat) (s : List Char) (pos : Nat) (ec : Bool), s.length ≤ f →
        tokenizeAux f s pos ec = tokenizeAux s.length s pos ec)
    ∧ (∀ (c : Char) (rest : List Char) (pos : Nat) (ec : Bool),
        ¬ c = '#' →
        ¬ ((c = '<' ∨ c = '>') ∧ lstartsWith rest ['('] = true) →
        matchRedirection (c :: rest) = none →
        matchCommandSeparator (c :: rest) = none →
        ¬ (c = '$' ∧ lstartsWith rest ['(', '('] = true) →
        ¬ (c = '$' ∧ lstartsWith rest ['('] = true ∧ ¬ rest[1]? = some '(') →
        ¬ (c = '$' ∧ lstartsWith rest [singleQuote] = true) →
        ¬ c = singleQuote → ¬ c = doubleQuote → ¬ c = backQuote →
        (if c = '!' ∧ 0 < rest.length then matchHistoryExpansion (c :: rest)
         else none) = none →
        matchWord (c :: rest) = 0 →
        nextToken (c :: rest) pos ec
          = (⟨ZshTokenType.unknownToken, [c], pos, pos⟩, pos + 1, ec)) := by
  exact ⟨fun c rest pos ec => (nextToken_adv c rest pos ec).1,
    tokenizeAux_fuel,
    fun c rest pos ec h1 h2 h3 h4 h5 h6 h7 h8 h9 h10 h11 h12 =>
      nextToken_unknown_fallback c rest pos ec h1 h2 h3 h4 h5 h6 h7 h8 h9 h10
        h11 h12⟩

/-- Witness for C8 at concrete inputs: the scan advances on `a`; fuel 5 and
exact fuel agree on `ab`; a lone `(` falls through every rule and becomes a
one-character unknown token. -/
theorem c8_tokenize_total_witness :
    (0 : Nat) < (nextToken ['a'] 0 true).2.1
    ∧ tokenizeAux 5 ['a', 'b'] 0 true = tokenizeAux 2 ['a', 'b'] 0 true
    ∧ nextToken ['('] 0 true
        = (⟨ZshTokenType.unknownToken, ['('], 0, 0⟩, 1, true) := by
  refine ⟨c8_tokenize_total.1 'a' [] 0 true, ?_, ?_⟩
  · exact c8_tokenize_total.2.1 5 ['a', 'b'] 0 true (by decide)
  · exact c8_tokenize_total.2.2 '(' [] 0 true (by decide) (by decide) (by decide)
      (by decide) (by decide) (by decide) (by decide) (by decide) (by decide)
      (by decide) (by decide) (by decide)

/-! ## Claim C4 -/

/-- Counterexample for C4 as stated: the claim's flag discipline (every
token other than separators, assignments and precommands clears the flag)
fails on the unknown-token branch, which leaves the flag unchanged.  On
`"(echo"` the `(` becomes an unknown token and `echo` is still classified
in command position (`builtin`), whereas classification with a cleared
flag would give `default`. -/
theorem c4_counterexample :
    (¬ ∀ (s : List Char) (pos : Nat) (ec : Bool),
        (nextToken s pos ec).2.2 = claimFlagStep (nextToken s pos ec).1.type ec)
    ∧ (tokenize ("(echo".toList)).map (fun t => t.type)
        = [ZshTokenType.unknownToken, ZshTokenType.builtin]
    ∧ (classifyWord ("echo".toList) false 1).type = ZshTokenType.default := by
  refine ⟨fun h => absurd (h ['('] 0 true) (by decide), by decide, by decide⟩

/-- C4 amended: the flag discipline of the scan, as the code implements it:
the flag starts true (`tokenize` seeds the scan loop with `true`), every
separator resets it to true, assignments and precommands leave it true,
command/builtin/reserved-word clear it, and every other token clears it
except unknown tokens (and the scan-ending comment), which leave it
unchanged.  The two examples of the claim hold. -/
theorem c4_flag_discipline :
    (∀ (s : List Char) (pos : Nat) (ec : Bool),
        (nextToken s pos ec).2.2 = flagStep (nextToken s pos ec).1.type ec)
    ∧ (tokenize ("VAR=value echo test".toList)).map (fun t => t.type)
        = [ZshTokenType.assign, ZshTokenType.builtin, ZshTokenType.default]
    ∧ (tokenize ("sudo rm -rf /".toList)).map (fun t => t.type)
        = [ZshTokenType.precommand, ZshTokenType.command,
           ZshTokenType.singleHyphenOption, ZshTokenType.path] := by
  exact ⟨fun s pos ec => nextToken_flag s pos ec, by decide, by decide⟩

/-! ## Claim C10 -/

/-- C10: a history-expansion token always spans at least two characters,
so a `!` that is the last character of the input is never classified as
history expansion; and `tokenize "!"` is a single reserved-word token
(`!` is in the reserved-word set and the scan starts in command
position). -/
theorem c10_bang_last_char :
    (∀ (input : List Char) (t : ZshToken), t ∈ tokenize input →
        t.type = ZshTokenType.historyExpansion → t.start < t.endPos)
    ∧ tokenize ['!'] = [⟨ZshTokenType.reservedWord, ['!'], 0, 0⟩] := by
  constructor
  · intro input t hm hty
    exact tokenizeAux_hist input.length input 0 true t hm hty
  · decide

/-- Witness for C10: the `!!` token of `tokenize "!!"`. -/
theorem c10_bang_last_char_witness : (0 : Nat) < 1 :=
  c10_bang_last_char.1 ['!', '!']
    ⟨ZshTokenType.historyExpansion, ['!', '!'], 0, 1⟩ (by decide) rfl

/-! ## Claim C1 -/

/-- C1: tokens are produced in strictly increasing offset order with
non-overlapping inclusive spans lying inside the input, each token's text
is exactly the input substring of its span, every input position lying in
no token's span holds a whitespace character, and re-assembling the token
texts with the original gaps reproduces the input exactly. -/
theorem c1_token_spans (input : List Char) :
    List.Chain' (fun a b => a.endPos < b.start) (tokenize input)
    ∧ (∀ t ∈ tokenize input,
        t.start ≤ t.endPos ∧ t.endPos < input.length ∧
        t.text = (input.drop t.start).take (t.endPos + 1 - t.start))
    ∧ (∀ k, k < input.length →
        (∀ t ∈ tokenize input, k < t.start ∨ t.endPos < k) →
        isWS (input.getD k ' ') = true)
    ∧ reassemble input 0 (tokenize input) = input := by
  have hc := tokenize_covers input
  refine ⟨covers_chain input 0 _ hc, ?_, ?_, ?_⟩
  · intro t hm
    obtain ⟨-, g2, g3, g4⟩ := covers_mem input 0 _ t hc hm
    exact ⟨g2, g3, g4⟩
  · intro k hk hall
    exact covers_gap input 0 _ hc k (Nat.zero_le k) hk hall
  · have h := covers_reassemble input 0 _ hc
    simpa using h

/-- Witness for C1 on `"echo hi"`: the span facts for the first token and
the whitespace fact for the gap position 4. -/
theorem c1_token_spans_witness :
    ((⟨ZshTokenType.builtin, ['e', 'c', 'h', 'o'], 0, 3⟩ : ZshToken).start
        ≤ (⟨ZshTokenType.builtin, ['e', 'c', 'h', 'o'], 0, 3⟩ : ZshToken).endPos
      ∧ (⟨ZshTokenType.builtin, ['e', 'c', 'h', 'o'], 0, 3⟩ : ZshToken).endPos
          < ("echo hi".toList).length
      ∧ (⟨ZshTokenType.builtin, ['e', 'c', 'h', 'o'], 0, 3⟩ : ZshToken).text
          = (("echo hi".toList).drop
              (⟨ZshTokenType.builtin, ['e', 'c', 'h', 'o'], 0, 3⟩ : ZshToken).start).take
              ((⟨ZshTokenType.builtin, ['e', 'c', 'h', 'o'], 0, 3⟩ : ZshToken).endPos + 1
                - (⟨ZshTokenType.builtin, ['e', 'c', 'h', 'o'], 0, 3⟩ : ZshToken).start))
    ∧ isWS (("echo hi".toList).getD 4 ' ') = true := by
  constructor
  · exact (c1_token_spans ("echo hi".toList)).2.1
      ⟨ZshTokenType.builtin, ['e', 'c', 'h', 'o'], 0, 3⟩ (by decide)
  · exact (c1_token_spans ("echo hi".toList)).2.2.1 4 (by decide) (by decide)

/-! ## Claim C3 -/

theorem lstartsWith_nil_right (l : List Char) : lstartsWith l [] = true := by
  cases l <;> rfl

theorem listContains_nil (l : List Char) : listContains l [] = true := by
  unfold listContains
  rw [lstartsWith_nil_right]
  rfl

/-- C3: the filter returns the subsequence of candidates, in their original
relative order, whose text (after the optional caller-supplied extraction
step and lower-casing) contains every space-separated lower-cased term of
the query as a substring (AND semantics); the empty query matches every
candidate.  The spec examples: `"foo bar"` matches `"xfooybarz"` and not
`"foo"`. -/
theorem c3_filter_contract :
    (∀ (gft : Option (List Char → List Char)) (items : List (List Char))
        (q : List Char),
      List.Sublist (filterItems gft items q) items
      ∧ (∀ item, item ∈ filterItems gft items q ↔ item ∈ items ∧
          multiMatch (toLowerL (match gft with
            | some f => f item
            | none => item)) (splitSp (toLowerL q)) = true)
      ∧ filterItems gft items [] = items)
    ∧ multiMatch ("xfooybarz".toList) (splitSp ("foo bar".toList)) = true
    ∧ multiMatch ("foo".toList) (splitSp ("foo bar".toList)) = false
    ∧ filterItems none ["xfooybarz".toList, "foo".toList] ("foo bar".toList)
        = ["xfooybarz".toList] := by
  refine ⟨fun gft items q => ⟨?_, fun item => ?_, ?_⟩, by decide, by decide,
    by decide⟩
  · exact List.filter_sublist _
  · unfold filterItems
    dsimp only
    exact List.mem_filter
  · unfold filterItems
    dsimp only
    apply List.filter_eq_self.mpr
    intro a _
    show multiMatch _ (splitSp (toLowerL [])) = true
    rw [show splitSp (toLowerL []) = [[]] from rfl]
    simp [multiMatch, listContains_nil]

/-! ## Claim C2 -/

/-- Counterexample for C2 as stated: after an editing keystroke the
controller always resets the selection to the last filtered item;
`updateMenu` ignores `selectionAtStart`, so for a drill-down-style
invocation (`selectionAtStart = true`) the selection is not reset to the
first item.  Concretely, with two items and the empty query the selection
becomes 1, not 0. -/
theorem c2_selection_counterexample :
    (¬ ∀ (st : MenuState) (line : List Char),
        (updateMenu st line).selection =
          if st.selectionAtStart then 0
          else (updateMenu st line).filteredItems.length - 1)
    ∧ (updateMenu ⟨[['a'], ['b']], [['a'], ['b']], 0, true, none⟩ []).selection = 1
    ∧ (⟨[['a'], ['b']], [['a'], ['b']], 0, true, none⟩
        : MenuState).selectionAtStart = true := by
  refine ⟨fun h =>
    absurd (h ⟨[['a'], ['b']], [['a'], ['b']], 0, true, none⟩ []) (by decide),
    rfl, rfl⟩

/-- C2 amended: after every editing keystroke that re-runs the filter, the
selection index is reset to the last filtered item (with the sentinel
substituted when the filter result is empty, so the index is always
valid); the `selectionAtStart` policy applies only to the initial
selection of `createMenu` and to `setItems` (the navigation-driven list
replacement), where drill-down-style invocations start at the first
item. -/
theorem c2_selection_reset_amended :
    (∀ (st : MenuState) (line : List Char),
        (updateMenu st line).selection
          = (updateMenu st line).filteredItems.length - 1)
    ∧ (∀ (st : MenuState) (line : List Char),
        0 < (updateMenu st line).filteredItems.length)
    ∧ (∀ (st : MenuState) (newItems : List (List Char)),
        (setItems st newItems).selection
          = if st.selectionAtStart then 0 else newItems.length - 1)
    ∧ (∀ st : MenuState, createMenuSelection st
          = if st.selectionAtStart then 0 else st.items.length - 1) := by
  refine ⟨fun st line => rfl, fun st line => ?_, fun st newItems => rfl,
    fun st => rfl⟩
  unfold updateMenu
  dsimp only
  split
  · simp
  · rename_i h
    omega

/-! ## Claim C7 -/

/-- C7: finalization invokes the result handler exactly once, after the
terminal restoration effects (leaving the alternate screen, showing the
cursor); the handler receives no line on the cancel path (negative index)
or when the selected entry is the "no matches" sentinel, and otherwise
receives the selected line with every newline placeholder glyph replaced
by a real line break. -/
theorem c7_menu_finalization :
    ∀ (fi : List (List Char)) (item : Int) (a : SelectionAction),
      (menuDone fi item a).countP isHandleEffect = 1
      ∧ menuDone fi item a
          = [PopupEffect.normalScreenE, PopupEffect.showCursorE,
             PopupEffect.handleSelectionE (menuDoneLine fi item) a]
      ∧ (item < 0 → menuDoneLine fi item = none)
      ∧ (∀ l, 0 ≤ item → fi[item.toNat]? = some l → l = NO_MATCHES →
          menuDoneLine fi item = none)
      ∧ (∀ l, 0 ≤ item → fi[item.toNat]? = some l → ¬ l = NO_MATCHES →
          menuDoneLine fi item = some (replaceGN l)) := by
  intro fi item a
  refine ⟨rfl, rfl, ?_, ?_, ?_⟩
  · intro h
    unfold menuDoneLine
    dsimp only
    rw [if_neg (by omega)]
  · intro l h0 hsome hNM
    unfold menuDoneLine
    dsimp only
    rw [if_pos h0, hsome]
    dsimp only
    rw [if_pos hNM]
  · intro l h0 hsome hNM
    unfold menuDoneLine
    dsimp only
    rw [if_pos h0, hsome]
    dsimp only
    rw [if_neg hNM]
    by_cases he : l.isEmpty = true
    · have h2 : l = [] := List.isEmpty_iff.mp he
      subst h2
      rfl
    · rw [if_neg he]

/-- Witness for C7: the cancel path, an out-of-range index, the sentinel
entry, and a selected line with a placeholder glyph restored. -/
theorem c7_menu_finalization_witness :
    menuDoneLine [['a'], NO_MATCHES] (-1) = none
    ∧ menuDoneLine [['a'], NO_MATCHES] 1 = none
    ∧ menuDoneLine [['a', GRAPHIC_NEWLINE, 'b']] 0 = some ['a', '\n', 'b'] := by
  refine ⟨?_, ?_, ?_⟩
  · exact (c7_menu_finalization [['a'], NO_MATCHES] (-1) .select).2.2.1 (by decide)
  · exact (c7_menu_finalization [['a'], NO_MATCHES] 1 .select).2.2.2.1
      NO_MATCHES (by decide) (by decide) rfl
  · exact ((c7_menu_finalization [['a', GRAPHIC_NEWLINE, 'b']] 0 .select).2.2.2.2
      ['a', GRAPHIC_NEWLINE, 'b'] (by decide) (by decide) (by decide)).trans
      (by decide)

/-! ## Claim C9 -/

theorem dropLast_append_of_getLast? (l : List Char) (c : Char)
    (h : l.getLast? = some c) : l.dropLast ++ [c] = l := by
  induction l with
  | nil => simp at h
  | cons a t ih =>
    cases t with
    | nil =>
      obtain rfl : a = c := by simpa [List.getLast?] using h
      simp
    | cons b t2 =>
      rw [List.getLast?_cons_cons] at h
      show a :: ((b :: t2).dropLast ++ [c]) = a :: b :: t2
      exact congrArg (List.cons a) (ih h)

/-- C9: the pure cursor-movement operations preserve the logical line
`left ++ right`; backspace with empty left, forward-delete with empty
right, move-left at the start and move-right at the end are no-ops;
backspace removes exactly the last character of `left` and forward-delete
exactly the first character of `right`. -/
theorem c9_line_editor :
    (∀ st : LineEd, (moveLeft st).line = st.line)
    ∧ (∀ st : LineEd, (moveRight st).line = st.line)
    ∧ (∀ st : LineEd, (goHome st).line = st.line)
    ∧ (∀ st : LineEd, (goEnd st).line = st.line)
    ∧ (∀ st : LineEd, (backwardWord st).line = st.line)
    ∧ (∀ st : LineEd, (forwardWord st).line = st.line)
    ∧ (∀ r : List Char, backspace ⟨[], r⟩ = ⟨[], r⟩)
    ∧ (∀ l : List Char, forwardDelete ⟨l, []⟩ = ⟨l, []⟩)
    ∧ (∀ r : List Char, moveLeft ⟨[], r⟩ = ⟨[], r⟩)
    ∧ (∀ l : List Char, moveRight ⟨l, []⟩ = ⟨l, []⟩)
    ∧ (∀ (l : List Char) (c : Char) (r : List Char),
        backspace ⟨l ++ [c], r⟩ = ⟨l, r⟩)
    ∧ (∀ (l : List Char) (c : Char) (r : List Char),
        forwardDelete ⟨l, c :: r⟩ = ⟨l, r⟩) := by
  refine ⟨?_, ?_, ?_, ?_, ?_, ?_, fun r => ?_, fun l => rfl, fun r => rfl,
    fun l => rfl, fun l c r => ?_, fun l c r => rfl⟩
  · intro st
    unfold moveLeft
    cases hgl : st.left.getLast? with
    | none => rfl
    | some c =>
      show st.left.dropLast ++ (c :: st.right) = st.left ++ st.right
      conv_rhs => rw [← dropLast_append_of_getLast? st.left c hgl]
      simp
  · intro st
    unfold moveRight
    cases hr : st.right with
    | nil => rfl
    | cons c rest =>
      show (st.left ++ [c]) ++ rest = st.left ++ st.right
      rw [hr]
      simp
  · intro st
    rfl
  · intro st
    show (st.left ++ st.right) ++ [] = st.left ++ st.right
    simp
  · intro st
    unfold backwardWord
    split
    · rfl
    · split
      · rename_i p hp
        show st.left.take p ++ (st.left.drop p ++ st.right) = st.left ++ st.right
        rw [← List.append_assoc, List.take_append_drop]
      · rfl
  · intro st
    unfold forwardWord
    split
    · rfl
    · split
      · rename_i p hp
        show (st.left ++ st.right.take p) ++ st.right.drop p
            = st.left ++ st.right
        rw [List.append_assoc, List.take_append_drop]
      · rfl
  · show LineEd.mk ([] : List Char).dropLast r = LineEd.mk [] r
    rfl
  · show LineEd.mk (l ++ [c]).dropLast r = LineEd.mk l r
    rw [List.dropLast_concat]

/-! ## Claim C6 -/

theorem fgColorFunc_decomp (hex s : List Char) :
    fgColorFunc hex s
      = (match parseCssHex hex with
         | none => RESET_COLOR_SEQUENCE
         | some (r, g, b) => fgRGB r g b) ++ s := by
  unfold fgColorFunc reset
  cases h : parseCssHex hex with
  | none => rfl
  | some p =>
    obtain ⟨r, g, b⟩ := p
    rfl

theorem tokenColors_decomp (ty : ZshTokenType) (s : List Char) :
    tokenColors ty s = typePre ty ++ s ++ typeSuf ty := by
  cases ty <;>
    simp only [tokenColors, typePre, typeSuf, composeDecorators, underline,
      fgColorFunc_decomp, List.append_nil, List.append_assoc]

theorem colorizeAux_assemble (line : List Char) : ∀ (pos : Nat) (ts : List ZshToken),
    covers line pos ts →
      colorizeAux line pos ts = assemble line typePre typeSuf pos ts := by
  intro pos ts
  induction ts generalizing pos with
  | nil =>
    intro _
    show (if pos < line.length then line.drop pos else []) = line.drop pos
    by_cases h : pos < line.length
    · rw [if_pos h]
    · rw [if_neg h]
      exact (List.drop_eq_nil_iff.mpr (by omega)).symm
  | cons t ts ih =>
    intro h
    obtain ⟨h1, h2, h3, h4, h5, h6⟩ := h
    have hgap : (if pos < t.start then jsSubstring line pos t.start else [])
        = (line.drop pos).take (t.start - pos) := by
      by_cases hp : pos < t.start
      · rw [if_pos hp]
        unfold jsSubstring
        rw [Nat.max_eq_right h1, Nat.min_eq_left h1, List.drop_take]
      · rw [if_neg hp]
        rw [show t.start - pos = 0 by omega]
        rfl
    have htext : jsSubstring line t.start (t.endPos + 1) = t.text := by
      unfold jsSubstring
      rw [Nat.max_eq_right (by omega), Nat.min_eq_left (by omega),
        List.drop_take, h5]
    unfold colorizeAux assemble
    rw [hgap, htext, ih (t.endPos + 1) h6]
    unfold applyTokenColor
    rw [tokenColors_decomp]
    simp [List.append_assoc]

theorem highlightCommand_assemble (cmd : List Char) :
    highlightCommand cmd = assemble cmd typePre typeSuf 0 (tokenize cmd) := by
  unfold highlightCommand colorize highlight
  by_cases h : (tokenize cmd).isEmpty = true
  · rw [if_pos h, List.isEmpty_iff.mp h]
    rfl
  · rw [if_neg h]
    exact colorizeAux_assemble cmd 0 (tokenize cmd) (tokenize_covers cmd)

/-- C6: highlighting preserves every character of the line in order.  The
highlighted output is exactly the re-assembly of the line from the token
list with a per-type prefix escape sequence before every token text and a
per-type suffix after it (non-empty only for builtins), gaps passed through
unmodified; the same re-assembly with the decorations removed is the
original line; and every inserted decoration is a concatenation of complete
ANSI escape sequences, so stripping all escape sequences yields the line. -/
theorem c6_highlight_preserves :
    (∀ cmd : List Char,
        highlightCommand cmd = assemble cmd typePre typeSuf 0 (tokenize cmd))
    ∧ (∀ cmd : List Char, reassemble cmd 0 (tokenize cmd) = cmd)
    ∧ (∀ ty : ZshTokenType,
        isAnsiSeqs (typePre ty) = true ∧ isAnsiSeqs (typeSuf ty) = true) := by
  refine ⟨highlightCommand_assemble, fun cmd => ?_, fun ty => ?_⟩
  · exact (covers_reassemble cmd 0 (tokenize cmd) (tokenize_covers cmd)).trans rfl
  · cases ty <;> exact ⟨by decide, by decide⟩

end Zeek